import Mathlib

/-!
Verification of the search-and-evaluation subsystem of a chess engine
(`IA.py`).  The rules engine (`chess.py`) is not part of the sources; per
the specification it is an external collaborator consumed through a narrow
contract, so it is modelled abstractly as an `Engine` structure whose
fields are the contract functions, together with a `Laws` predicate that
records the behavioural guarantees the specification assigns to it.
All functions of `IA.py` itself are translated directly from the source.
Python `None`-propagation / crashes (``choice([])``, unbound locals,
falling off the end of a function) are modelled with `Option`.
-/

namespace ChessAI

/-- Color of a side: the specification's binary enum {WHITE, BLACK}. -/
inductive Color where
  | white
  | black
deriving DecidableEq

/-- Rules-engine operation `opposing_color`: flips the color. -/
def opposing_color : Color → Color
  | .white => .black
  | .black => .white

theorem opposing_color_involutive (c : Color) : opposing_color (opposing_color c) = c := by
  cases c <;> rfl

theorem opposing_color_ne (c : Color) : opposing_color c ≠ c := by
  cases c <;> simp [opposing_color]

theorem eq_opposing_of_ne {c c' : Color} (h : c ≠ c') : c = opposing_color c' := by
  cases c <;> cases c' <;> simp_all [opposing_color]

/-- Modelled from the spec and the `IA.py` header docstring: pieces are
bitmasks `0bCPPP` where `C` is the color bit and `PPP` the piece code;
`EMPTY` is the distinguished non-piece value. -/
def EMPTY : Nat := 0

/-- Modelled from the spec: mask extracting the piece-kind code. -/
def PIECE_MASK : Nat := 7

/-- Modelled from the spec: mask extracting the color bit. -/
def COLOR_MASK : Nat := 8

/-- Modelled from the spec: piece-kind code for pawns. -/
def PAWN : Nat := 1

/-- Modelled from the spec: piece-kind code for knights. -/
def KNIGHT : Nat := 2

/-- Modelled from the spec: piece-kind code for bishops. -/
def BISHOP : Nat := 3

/-- Modelled from the spec: piece-kind code for rooks. -/
def ROOK : Nat := 4

/-- Modelled from the spec: piece-kind code for queens. -/
def QUEEN : Nat := 5

/-- Modelled from the spec: piece-kind code for kings. -/
def KING : Nat := 6

/-- Modelled from the spec: the numeric color code carried in a piece's
color bit, `WHITE = 0b0000`, `BLACK = 0b1000`. -/
def colorCode : Color → Nat
  | .white => 0
  | .black => 8

/-- Modelled from the spec: the rank-7 bit mask in little-endian
rank-file mapping (`a1 = 0`, `h8 = 63`), i.e. bits 48..55. -/
def RANK_7 : Nat := 255 <<< 48

/-- The rules-engine contract of §6 of the specification, together with the
opening-book data consumed by the driver.  `G` is the type of game states,
`M` the type of moves.  `choice` / `choiceStr` model the injected random
selection of the Python `random.choice` (returning `none` on an empty
list, where Python raises). -/
structure Engine (G M : Type) where
  legal_moves : G → Color → List M
  make_move : G → M → G
  to_move : G → Color
  game_ended : G → Bool
  is_checkmate : G → Color → Bool
  is_stalemate : G → Bool
  has_insufficient_material : G → Bool
  is_under_75_move_rule : G → Bool
  board : G → List Nat
  material_sum : List Nat → Color → Int
  count_legal_moves : G → Color → Int
  is_open_file : Nat → List Nat → Bool
  is_semi_open_file : Nat → List Nat → Bool
  is_endgame : List Nat → Bool
  flip_board_v : List Nat → List Nat
  PIECE_VALUES : Nat → Int
  PAWN_BONUS : Nat → Int
  KNIGHT_BONUS : Nat → Int
  BISHOP_BONUS : Nat → Int
  KING_BONUS : Nat → Int
  KING_ENDGAME_BONUS : Nat → Int
  ROOK_OPEN_FILE_BONUS : Int
  ROOK_SEMI_OPEN_FILE_BONUS : Int
  ROOK_ON_SEVENTH_BONUS : Int
  choice : List M → Option M
  choiceStr : List String → Option String
  position_history : G → List String
  INITIAL_FEN : String
  get_move_list : G → String
  book : List String
  decode_move : String → String → M

variable {G M : Type}

/-- Source `material_balance(board)`. -/
def material_balance (e : Engine G M) (b : List Nat) : Int :=
  e.material_sum b .white - e.material_sum b .black

/-- Source `mobility_balance(game)`. -/
def mobility_balance (e : Engine G M) (g : G) : Int :=
  e.count_legal_moves g .white - e.count_legal_moves g .black

/-- Source `positional_bonus(game, color)`: per-square positional bonuses
summed over the board, the board being mirrored vertically first when the
evaluated color is Black. -/
def positional_bonus (e : Engine G M) (g : G) (c : Color) : Int :=
  let b : List Nat :=
    match c with
    | .white => e.board g
    | .black => e.flip_board_v (e.board g)
  (List.range 64).foldl
    (fun bonus index =>
      let piece := b.getD index EMPTY
      if piece ≠ EMPTY ∧ piece &&& COLOR_MASK = colorCode c then
        let piece_type := piece &&& PIECE_MASK
        if piece_type = PAWN then bonus + e.PAWN_BONUS index
        else if piece_type = KNIGHT then bonus + e.KNIGHT_BONUS index
        else if piece_type = BISHOP then bonus + e.BISHOP_BONUS index
        else if piece_type = ROOK then
          let position := 1 <<< index
          let b1 :=
            if e.is_open_file position b then bonus + e.ROOK_OPEN_FILE_BONUS
            else if e.is_semi_open_file position b then bonus + e.ROOK_SEMI_OPEN_FILE_BONUS
            else bonus
          if position &&& RANK_7 ≠ 0 then b1 + e.ROOK_ON_SEVENTH_BONUS else b1
        else if piece_type = KING then
          if e.is_endgame b then bonus + e.KING_ENDGAME_BONUS index
          else bonus + e.KING_BONUS index
        else bonus
      else bonus)
    0

/-- Source `positional_balance(game)`. -/
def positional_balance (e : Engine G M) (g : G) : Int :=
  positional_bonus e g .white - positional_bonus e g .black

/-- Source `win_score(color)`: `-10*PIECE_VALUES[KING]` for White,
`+10*PIECE_VALUES[KING]` for Black. -/
def win_score (e : Engine G M) : Color → Int
  | .white => -10 * e.PIECE_VALUES KING
  | .black => 10 * e.PIECE_VALUES KING

/-- Source `evaluate_end_node(game)`.  The Python function implicitly
returns `None` when none of its branches fire, modelled as `none`. -/
def evaluate_end_node (e : Engine G M) (g : G) : Option Int :=
  if e.is_checkmate g (e.to_move g) then some (win_score e (e.to_move g))
  else if e.is_stalemate g || e.has_insufficient_material g || e.is_under_75_move_rule g then
    some 0
  else none

/-- Source `evaluate_game(game)`: terminal check first, otherwise material
plus positional balance.  The commented-out `10*mobility_balance(game)`
term of the source is (deliberately) absent. -/
def evaluate_game (e : Engine G M) (g : G) : Option Int :=
  if e.game_ended g then evaluate_end_node e g
  else some (material_balance e (e.board g) + positional_balance e g)

/-- The loop of source `evaluated_move(game, color)`, threading the running
`best_score` and `best_moves` accumulator.  A `none` result models a Python
crash (`choice([])` on an empty best-move set, or an evaluation of `None`
being compared). -/
def emLoop (e : Engine G M) (g : G) (c : Color) :
    List M → Int → List M → Option (M × Int)
  | [], best_score, best_moves =>
      (e.choice best_moves).map (fun mv => (mv, best_score))
  | m :: rest, best_score, best_moves =>
      match evaluate_game e (e.make_move g m) with
      | none => none
      | some evaluation =>
        if e.is_checkmate (e.make_move g m) (opposing_color (e.to_move g)) then
          some (m, evaluation)
        else if (c = .white ∧ best_score < evaluation) ∨ (c = .black ∧ evaluation < best_score) then
          emLoop e g c rest evaluation [m]
        else if evaluation = best_score then
          emLoop e g c rest best_score (best_moves ++ [m])
        else
          emLoop e g c rest best_score best_moves

/-- Source `evaluated_move(game, color)`: the single-ply ranker. -/
def evaluated_move (e : Engine G M) (g : G) (c : Color) : Option (M × Int) :=
  emLoop e g c (e.legal_moves g c) (win_score e c) []

/-- The loop of source `minimax`, parameterised by the recursive call
`rec` (which is `minimax` one ply shallower on the opposing color). -/
def mmLoop (e : Engine G M) (rec : G → Option (Option M × Int)) (g : G) (c : Color) :
    List M → Int → List M → Option (Option M × Int)
  | [], best_score, best_moves =>
      (e.choice best_moves).map (fun mv => (some mv, best_score))
  | m :: rest, best_score, best_moves =>
      let his := e.make_move g m
      if e.is_checkmate his (e.to_move his) then
        some (some m, win_score e (e.to_move his))
      else
        match rec his with
        | none => none
        | some (_, evaluation) =>
          if evaluation = win_score e (opposing_color c) then
            some (some m, evaluation)
          else if (c = .white ∧ best_score < evaluation) ∨ (c = .black ∧ evaluation < best_score) then
            mmLoop e rec g c rest evaluation [m]
          else if evaluation = best_score then
            mmLoop e rec g c rest best_score (best_moves ++ [m])
          else
            mmLoop e rec g c rest best_score best_moves

/-- Source `minimax(game, color, depth)`.  The Nat argument is the Python
`depth`; at depth `0` the Python code would recurse without a base case
(`depth == 1` is the only base), modelled as `none`. -/
def minimax (e : Engine G M) : Nat → G → Color → Option (Option M × Int)
  | 0 => fun _ _ => none
  | d + 1 => fun g c =>
      if e.game_ended g then (evaluate_game e g).map (fun v => ((none : Option M), v))
      else
        match evaluated_move e g c with
        | none => none
        | some (simple_move, simple_evaluation) =>
          if d = 0 ∨ simple_evaluation = win_score e (opposing_color c) then
            some (some simple_move, simple_evaluation)
          else
            mmLoop e (fun g' => minimax e d g' (opposing_color c)) g c
              (e.legal_moves g c) (win_score e c) []

/-- Scores extended with `-∞` and `+∞`: the type of the `alpha`/`beta`
window of `alpha_beta`, whose Python defaults are `±float('inf')`. -/
abbrev EV : Type := WithBot (WithTop Int)

/-- Embedding of an integer score into the extended score type. -/
def iv (n : Int) : EV := ((n : WithTop Int) : EV)

/-- The default `alpha` of `alpha_beta`: `-float('inf')`. -/
def NEG_INF : EV := ⊥

/-- The default `beta` of `alpha_beta`: `+float('inf')`. -/
def POS_INF : EV := ((⊤ : WithTop Int) : EV)

/-- The White (maximizing) branch loop of source `alpha_beta`,
parameterised by the recursive call `rec`.  The threaded `alpha` is the
second list-like argument; `best_moves` the third.  Mirrors the source
exactly: the sentinel early return, the tie append when `score == alpha`,
the update `alpha = score` when `score > alpha`, and the cutoff `break`
when afterwards `alpha > beta` (the `break` lands on the final
`return [choice(best_moves), alpha]` with `best_moves = [move]`). -/
def abLoopW (e : Engine G M) (rec : G → EV → EV → Option (Option M × EV))
    (g : G) (beta : EV) :
    List M → EV → List M → Option (Option M × EV)
  | [], alpha, best_moves =>
      if best_moves.isEmpty then some ((none : Option M), alpha)
      else (e.choice best_moves).map (fun mv => (some mv, alpha))
  | m :: rest, alpha, best_moves =>
      match rec (e.make_move g m) alpha beta with
      | none => none
      | some (_, score) =>
        if score = iv (win_score e .black) then some (some m, score)
        else
          let bm1 := if score = alpha then best_moves ++ [m] else best_moves
          if alpha < score then
            if beta < score then (e.choice [m]).map (fun mv => (some mv, score))
            else abLoopW e rec g beta rest score [m]
          else abLoopW e rec g beta rest alpha bm1

/-- The Black (minimizing) branch loop of source `alpha_beta`, symmetric
to `abLoopW` with `beta` threaded and the cutoff when `alpha > beta`
after `beta = score`. -/
def abLoopB (e : Engine G M) (rec : G → EV → EV → Option (Option M × EV))
    (g : G) (alpha : EV) :
    List M → EV → List M → Option (Option M × EV)
  | [], beta, best_moves =>
      if best_moves.isEmpty then some ((none : Option M), beta)
      else (e.choice best_moves).map (fun mv => (some mv, beta))
  | m :: rest, beta, best_moves =>
      match rec (e.make_move g m) alpha beta with
      | none => none
      | some (_, score) =>
        if score = iv (win_score e .white) then some (some m, score)
        else
          let bm1 := if score = beta then best_moves ++ [m] else best_moves
          if score < beta then
            if score < alpha then (e.choice [m]).map (fun mv => (some mv, score))
            else abLoopB e rec g alpha rest score [m]
          else abLoopB e rec g alpha rest beta bm1

/-- Source `alpha_beta(game, color, depth, alpha, beta)`.  Same base-case
structure as `minimax`; the two color branches carry the bound window. -/
def alpha_beta (e : Engine G M) : Nat → G → Color → EV → EV → Option (Option M × EV)
  | 0 => fun _ _ _ _ => none
  | d + 1 => fun g c alpha beta =>
      if e.game_ended g then (evaluate_game e g).map (fun v => ((none : Option M), iv v))
      else
        match evaluated_move e g c with
        | none => none
        | some (simple_move, simple_evaluation) =>
          if d = 0 ∨ simple_evaluation = win_score e (opposing_color c) then
            some (some simple_move, iv simple_evaluation)
          else
            match c with
            | .white =>
                abLoopW e (fun g' a b => alpha_beta e d g' .black a b) g beta
                  (e.legal_moves g c) alpha []
            | .black =>
                abLoopB e (fun g' a b => alpha_beta e d g' .white a b) g alpha
                  (e.legal_moves g c) beta []

/-- Source `find_in_book(game)`: returns `False` (modelled as the empty
list, which is equally falsy) unless the game started from the initial
position, else the book lines extending the game's move list.  Book lines
are modelled as already stripped of trailing whitespace; the file read of
`book.txt` is modelled by the engine's `book` field. -/
def find_in_book (e : Engine G M) (g : G) : List String :=
  if (e.position_history g).headD "" ≠ e.INITIAL_FEN then []
  else e.book.filter
    (fun line => (e.get_move_list g).isPrefixOf line && decide (e.get_move_list g < line))

/-- Source `get_book_move(game)`: chooses a matching opening at random and
decodes the next move of the line (`decode_move` stands for the
`replace`/`lstrip`/`split`/`str2bb` decoding of the source). -/
def get_book_move (e : Engine G M) (g : G) : Option M :=
  (e.choiceStr (find_in_book e g)).map (fun line => e.decode_move (e.get_move_list g) line)

/-- Source `get_AI_move(game, depth=2, use_book=False)`.  When `use_book`
is set and the book lookup misses, the Python local `move` is never
assigned and the function raises `UnboundLocalError` at its `return`,
modelled as `none`.  Only when `use_book` is false does it invoke
`alpha_beta` with the default window. -/
def get_AI_move (e : Engine G M) (g : G) (depth : Nat) (use_book : Bool) : Option M :=
  if use_book then
    if find_in_book e g ≠ [] then get_book_move e g
    else none
  else
    match alpha_beta e depth g (e.to_move g) NEG_INF POS_INF with
    | none => none
    | some (mv, _) => mv

/-- The sentinel magnitude `10 * PIECE_VALUES[KING]`: the forced-win score
`win_score(BLACK)`, negated for `win_score(WHITE)`. -/
def mateScore (e : Engine G M) : Int := 10 * e.PIECE_VALUES KING

/-- Behavioural guarantees of the rules engine (spec §3, §6, §7): `choice`
picks an element of a nonempty list; `make_move` flips the side to move; a
checkmate of the side to move is a game end; an ended game is checkmate or
one of the three draw conditions; `legal_moves` is never empty unless the
game has ended; the king's value is positive and static evaluations are
dominated by the win-score sentinel; and a legal move of a color never
leaves that same color checkmated (legal-move generation filters moves
leaving the mover's king attacked). -/
structure Laws (e : Engine G M) : Prop where
  choice_mem : ∀ (l : List M) (m : M), e.choice l = some m → m ∈ l
  choice_total : ∀ (l : List M), l ≠ [] → e.choice l ≠ none
  to_move_make : ∀ g m, e.to_move (e.make_move g m) = opposing_color (e.to_move g)
  mate_ended : ∀ g, e.is_checkmate g (e.to_move g) = true → e.game_ended g = true
  ended_cases : ∀ g, e.game_ended g = true →
    e.is_checkmate g (e.to_move g) = true ∨
      (e.is_stalemate g || e.has_insufficient_material g || e.is_under_75_move_rule g) = true
  no_stuck : ∀ g c, e.game_ended g = false → e.legal_moves g c ≠ []
  king_pos : 0 < e.PIECE_VALUES KING
  static_bound : ∀ g, e.game_ended g = false →
    -(mateScore e) ≤ material_balance e (e.board g) + positional_balance e g ∧
      material_balance e (e.board g) + positional_balance e g ≤ mateScore e
  mover_not_mated : ∀ g c m, m ∈ e.legal_moves g c →
    e.is_checkmate (e.make_move g m) c = false

theorem mateScore_pos (e : Engine G M) (L : Laws e) : 0 < mateScore e := by
  have := L.king_pos
  unfold mateScore
  omega

theorem win_score_white (e : Engine G M) : win_score e .white = -(mateScore e) := by
  simp [win_score, mateScore]

theorem win_score_black (e : Engine G M) : win_score e .black = mateScore e := rfl

theorem win_score_opposing (e : Engine G M) (c : Color) :
    win_score e (opposing_color c) = -(win_score e c) := by
  cases c <;> simp [win_score, opposing_color]

theorem win_score_bounds (e : Engine G M) (L : Laws e) (c : Color) :
    -(mateScore e) ≤ win_score e c ∧ win_score e c ≤ mateScore e := by
  have := mateScore_pos e L
  cases c <;> simp [win_score_white, win_score_black] <;> omega

/-- Evaluation is total under the rules-engine laws, and its value is
bounded by the win-score sentinel. -/
theorem evaluate_game_total (e : Engine G M) (L : Laws e) (g : G) :
    ∃ v, evaluate_game e g = some v ∧ -(mateScore e) ≤ v ∧ v ≤ mateScore e := by
  unfold evaluate_game
  by_cases h : e.game_ended g = true
  · simp only [h, if_true]
    rcases L.ended_cases g h with hm | hd
    · refine ⟨win_score e (e.to_move g), ?_, (win_score_bounds e L _).1, (win_score_bounds e L _).2⟩
      simp [evaluate_end_node, hm]
    · unfold evaluate_end_node
      by_cases hcm : e.is_checkmate g (e.to_move g) = true
      · exact ⟨win_score e (e.to_move g), by simp [hcm],
          (win_score_bounds e L _).1, (win_score_bounds e L _).2⟩
      · have := mateScore_pos e L
        exact ⟨0, by simp [hcm, hd], by omega, by omega⟩
  · have hne : e.game_ended g = false := by simpa using h
    have := L.static_bound g hne
    exact ⟨_, by simp [hne], this.1, this.2⟩

theorem iv_le_iv {a b : Int} : iv a ≤ iv b ↔ a ≤ b := by
  simp [iv]

theorem iv_lt_iv {a b : Int} : iv a < iv b ↔ a < b := by
  simp [iv]

theorem iv_inj {a b : Int} : iv a = iv b ↔ a = b := by
  simp [iv]

theorem iv_le_pos_inf (a : Int) : iv a ≤ POS_INF := by
  simp [iv, POS_INF]

theorem neg_inf_le (x : EV) : NEG_INF ≤ x := bot_le

theorem neg_inf_lt_iv (a : Int) : NEG_INF < iv a := by
  simp [iv, NEG_INF]

theorem iv_lt_pos_inf (a : Int) : iv a < POS_INF := by
  simp only [iv, POS_INF, WithBot.coe_lt_coe]
  exact WithTop.coe_lt_top a

theorem iv_max (a b : Int) : iv (max a b) = max (iv a) (iv b) := by
  rcases le_total a b with h | h
  · rw [max_eq_right h, max_eq_right (iv_le_iv.mpr h)]
  · rw [max_eq_left h, max_eq_left (iv_le_iv.mpr h)]

theorem iv_min (a b : Int) : iv (min a b) = min (iv a) (iv b) := by
  rcases le_total a b with h | h
  · rw [min_eq_left h, min_eq_left (iv_le_iv.mpr h)]
  · rw [min_eq_right h, min_eq_right (iv_le_iv.mpr h)]

section Folds

variable {α β : Type} [LinearOrder α]

/-- Running maximum of `f` over a list, seeded with `a` (the shape of the
score accumulation in the maximizing search loops). -/
def fmax (f : β → α) (a : α) (l : List β) : α :=
  l.foldl (fun acc x => max acc (f x)) a

/-- Running minimum of `f` over a list, seeded with `a`. -/
def fmin (f : β → α) (a : α) (l : List β) : α :=
  l.foldl (fun acc x => min acc (f x)) a

theorem fmax_nil (f : β → α) (a : α) : fmax f a [] = a := rfl

theorem fmax_cons (f : β → α) (a : α) (x : β) (l : List β) :
    fmax f a (x :: l) = fmax f (max a (f x)) l := rfl

theorem le_fmax_init (f : β → α) (a : α) (l : List β) : a ≤ fmax f a l := by
  induction l generalizing a with
  | nil => exact le_refl a
  | cons x xs ih =>
      rw [fmax_cons]
      exact le_trans (le_max_left a (f x)) (ih (max a (f x)))

theorem fmax_le (f : β → α) {a B : α} {l : List β} (ha : a ≤ B)
    (hl : ∀ x ∈ l, f x ≤ B) : fmax f a l ≤ B := by
  induction l generalizing a with
  | nil => exact ha
  | cons x xs ih =>
      rw [fmax_cons]
      exact ih (max_le ha (hl x (by simp))) (fun y hy => hl y (by simp [hy]))

theorem le_fmax_of_mem (f : β → α) (a : α) {x : β} {l : List β} (hx : x ∈ l) :
    f x ≤ fmax f a l := by
  induction l generalizing a with
  | nil => cases hx
  | cons y ys ih =>
      rw [fmax_cons]
      rcases List.mem_cons.mp hx with h | h
      · subst h
        exact le_trans (le_max_right a (f x)) (le_fmax_init f _ ys)
      · exact ih _ h

theorem fmax_shift (f : β → α) (a b : α) (l : List β) :
    fmax f (max a b) l = max a (fmax f b l) := by
  induction l generalizing b with
  | nil => rfl
  | cons x xs ih =>
      rw [fmax_cons, fmax_cons, max_assoc, ih]

theorem fmax_attained (f : β → α) (a : α) (l : List β) :
    fmax f a l = a ∨ ∃ x ∈ l, fmax f a l = f x := by
  induction l generalizing a with
  | nil => exact Or.inl rfl
  | cons x xs ih =>
      rw [fmax_cons]
      rcases ih (max a (f x)) with h | ⟨y, hy, hyv⟩
      · rcases max_choice a (f x) with hc | hc
        · exact Or.inl (by rw [h, hc])
        · exact Or.inr ⟨x, by simp, by rw [h, hc]⟩
      · exact Or.inr ⟨y, by simp [hy], hyv⟩

theorem fmin_nil (f : β → α) (a : α) : fmin f a [] = a := rfl

theorem fmin_cons (f : β → α) (a : α) (x : β) (l : List β) :
    fmin f a (x :: l) = fmin f (min a (f x)) l := rfl

theorem fmin_le_init (f : β → α) (a : α) (l : List β) : fmin f a l ≤ a := by
  induction l generalizing a with
  | nil => exact le_refl a
  | cons x xs ih =>
      rw [fmin_cons]
      exact le_trans (ih (min a (f x))) (min_le_left a (f x))

theorem le_fmin (f : β → α) {a B : α} {l : List β} (ha : B ≤ a)
    (hl : ∀ x ∈ l, B ≤ f x) : B ≤ fmin f a l := by
  induction l generalizing a with
  | nil => exact ha
  | cons x xs ih =>
      rw [fmin_cons]
      exact ih (le_min ha (hl x (by simp))) (fun y hy => hl y (by simp [hy]))

theorem fmin_le_of_mem (f : β → α) (a : α) {x : β} {l : List β} (hx : x ∈ l) :
    fmin f a l ≤ f x := by
  induction l generalizing a with
  | nil => cases hx
  | cons y ys ih =>
      rw [fmin_cons]
      rcases List.mem_cons.mp hx with h | h
      · subst h
        exact le_trans (fmin_le_init f _ ys) (min_le_right a (f x))
      · exact ih _ h

theorem fmin_shift (f : β → α) (a b : α) (l : List β) :
    fmin f (min a b) l = min a (fmin f b l) := by
  induction l generalizing b with
  | nil => rfl
  | cons x xs ih =>
      rw [fmin_cons, fmin_cons, min_assoc, ih]

theorem fmin_attained (f : β → α) (a : α) (l : List β) :
    fmin f a l = a ∨ ∃ x ∈ l, fmin f a l = f x := by
  induction l generalizing a with
  | nil => exact Or.inl rfl
  | cons x xs ih =>
      rw [fmin_cons]
      rcases ih (min a (f x)) with h | ⟨y, hy, hyv⟩
      · rcases min_choice a (f x) with hc | hc
        · exact Or.inl (by rw [h, hc])
        · exact Or.inr ⟨x, by simp, by rw [h, hc]⟩
      · exact Or.inr ⟨y, by simp [hy], hyv⟩

end Folds

/-- A small concrete rules engine used to witness the theorems: game
states are ply counters.  States `0..3` are live; state `5` (reached only
by White's move `2` from state `0`) is checkmate of Black; all other
states `≥ 4` are stalemates.  White moves are the even move ids, Black
moves the odd ones. -/
def WEngine : Engine Nat Nat where
  legal_moves := fun g c =>
    if 4 ≤ g then [] else match c with | .white => [0, 2] | .black => [1, 3]
  make_move := fun g m =>
    if g = 0 ∧ m = 0 then 1 else if g = 0 ∧ m = 2 then 5 else g + 1
  to_move := fun g => if g % 2 = 0 then .white else .black
  game_ended := fun g => decide (4 ≤ g)
  is_checkmate := fun g c => decide (g = 5 ∧ c = Color.black)
  is_stalemate := fun g => decide (4 ≤ g ∧ g ≠ 5)
  has_insufficient_material := fun _ => false
  is_under_75_move_rule := fun _ => false
  board := fun _ => []
  material_sum := fun _ _ => 0
  count_legal_moves := fun _ _ => 0
  is_open_file := fun _ _ => false
  is_semi_open_file := fun _ _ => false
  is_endgame := fun _ => false
  flip_board_v := fun b => b
  PIECE_VALUES := fun _ => 1
  PAWN_BONUS := fun _ => 0
  KNIGHT_BONUS := fun _ => 0
  BISHOP_BONUS := fun _ => 0
  KING_BONUS := fun _ => 0
  KING_ENDGAME_BONUS := fun _ => 0
  ROOK_OPEN_FILE_BONUS := 0
  ROOK_SEMI_OPEN_FILE_BONUS := 0
  ROOK_ON_SEVENTH_BONUS := 0
  choice := List.head?
  choiceStr := List.head?
  position_history := fun _ => ["other"]
  INITIAL_FEN := "init"
  get_move_list := fun _ => ""
  book := []
  decode_move := fun _ _ => 0

theorem wengine_positional_bonus (g : Nat) (c : Color) :
    positional_bonus WEngine g c = 0 := by
  cases c <;> rfl

theorem wengine_laws : Laws WEngine := by
  constructor
  · intro l m h
    cases l with
    | nil => cases h
    | cons x xs => simp [WEngine] at h; simp [h]
  · intro l h
    cases l with
    | nil => exact absurd rfl h
    | cons x xs => simp [WEngine]
  · intro g m
    simp only [WEngine, opposing_color]
    by_cases h0 : g = 0 ∧ m = 0
    · simp [h0.1, h0.2]
    · by_cases h2 : g = 0 ∧ m = 2
      · simp [h2.1, h2.2]
      · simp only [h0, h2, if_false]
        rcases Nat.even_or_odd g with he | ho
        · have h1 : g % 2 = 0 := Nat.even_iff.mp he
          have h2' : (g + 1) % 2 = 1 := by omega
          simp [h1, h2']
        · have h1 : g % 2 = 1 := Nat.odd_iff.mp ho
          have h2' : (g + 1) % 2 = 0 := by omega
          simp [h1, h2']
  · intro g h
    simp only [WEngine, decide_eq_true_eq] at h ⊢
    omega
  · intro g h
    simp only [WEngine, decide_eq_true_eq] at h
    by_cases h5 : g = 5
    · subst h5
      left
      simp [WEngine]
    · right
      simp [WEngine, h, h5]
  · intro g c h
    simp only [WEngine, decide_eq_false_iff_not] at h ⊢
    have : ¬ 4 ≤ g := by simpa using h
    simp only [this, if_false]
    cases c <;> simp
  · norm_num [WEngine]
  · intro g h
    have hm : material_balance WEngine (WEngine.board g) = 0 := rfl
    have hp : positional_balance WEngine g = 0 := by
      simp [positional_balance, wengine_positional_bonus]
    rw [hm, hp]
    norm_num [mateScore, WEngine]
  · intro g c m hm
    simp only [WEngine, decide_eq_false_iff_not]
    by_cases hg : 4 ≤ g
    · simp [WEngine, hg] at hm
    · rintro ⟨h5, hc⟩
      subst hc
      simp only [WEngine, hg, if_false] at hm
      have : g = 0 ∧ m = 2 := by
        by_cases h0 : g = 0 ∧ m = 0
        · simp [WEngine, h0.1, h0.2] at h5
        · by_cases h2 : g = 0 ∧ m = 2
          · exact h2
          · simp only [WEngine, h0, h2, if_false] at h5
            omega
      rcases this with ⟨hg0, hm2⟩
      subst hg0
      subst hm2
      simp at hm

/-- Evaluation of the position after a move, defaulted to `0` (total
under `Laws`, where the default never applies). -/
def childEval (e : Engine G M) (g : G) (m : M) : Int :=
  (evaluate_game e (e.make_move g m)).getD 0

theorem childEval_eq (e : Engine G M) {g : G} {m : M} {v : Int}
    (h : evaluate_game e (e.make_move g m) = some v) : childEval e g m = v := by
  simp [childEval, h]

/-- Totality, membership, returned-evaluation and bounds for the
single-ply loop. -/
theorem emLoop_strong (e : Engine G M) (L : Laws e) (g : G) (c : Color) :
    ∀ (ms : List M) (bs : Int) (bm : List M),
      (∀ x ∈ bm, evaluate_game e (e.make_move g x) = some bs) →
      -(mateScore e) ≤ bs → bs ≤ mateScore e →
      (bm = [] → bs = win_score e c) →
      (bm ≠ [] ∨ ms ≠ []) →
      ∃ mv v, emLoop e g c ms bs bm = some (mv, v) ∧
        (mv ∈ ms ∨ mv ∈ bm) ∧
        evaluate_game e (e.make_move g mv) = some v ∧
        -(mateScore e) ≤ v ∧ v ≤ mateScore e := by
  intro ms
  induction ms with
  | nil =>
      intro bs bm hbm hlo hhi _ hne
      have hbmne : bm ≠ [] := by
        rcases hne with h | h
        · exact h
        · exact absurd rfl h
      have htot := L.choice_total bm hbmne
      cases hc : e.choice bm with
      | none => exact absurd hc htot
      | some mv =>
          have hmem := L.choice_mem bm mv hc
          exact ⟨mv, bs, by simp [emLoop, hc], Or.inr hmem, hbm mv hmem, hlo, hhi⟩
  | cons m rest ih =>
      intro bs bm hbm hlo hhi hinit hne
      obtain ⟨ev, hev, hevlo, hevhi⟩ := evaluate_game_total e L (e.make_move g m)
      cases hmate : e.is_checkmate (e.make_move g m) (opposing_color (e.to_move g)) with
      | true =>
          exact ⟨m, ev, by simp [emLoop, hev, hmate], Or.inl (by simp), hev, hevlo, hevhi⟩
      | false =>
          by_cases himp : (c = .white ∧ bs < ev) ∨ (c = .black ∧ ev < bs)
          · obtain ⟨mv, v, hr, hmv, hevv, hlo', hhi'⟩ :=
              ih ev [m] (by intro x hx; simp at hx; subst hx; exact hev) hevlo hevhi
                (by simp) (Or.inl (by simp))
            refine ⟨mv, v, ?_, ?_, hevv, hlo', hhi'⟩
            · simpa [emLoop, hev, hmate, himp] using hr
            · rcases hmv with h | h
              · exact Or.inl (by simp [h])
              · simp at h
                exact Or.inl (by simp [h])
          · by_cases htie : ev = bs
            · obtain ⟨mv, v, hr, hmv, hevv, hlo', hhi'⟩ :=
                ih bs (bm ++ [m])
                  (by
                    intro x hx
                    rcases List.mem_append.mp hx with h | h
                    · exact hbm x h
                    · simp at h
                      subst h
                      rw [hev, htie])
                  hlo hhi (by simp) (Or.inl (by simp))
              refine ⟨mv, v, ?_, ?_, hevv, hlo', hhi'⟩
              · simpa [emLoop, hev, hmate, himp, htie] using hr
              · rcases hmv with h | h
                · exact Or.inl (by simp [h])
                · rcases List.mem_append.mp h with h' | h'
                  · exact Or.inr h'
                  · simp at h'
                    exact Or.inl (by simp [h'])
            · have hbmne : bm ≠ [] := by
                intro hbmnil
                have hbs := hinit hbmnil
                cases c with
                | white =>
                    have h1 : bs = -(mateScore e) := by rw [hbs, win_score_white]
                    exact himp (Or.inl ⟨rfl, by omega⟩)
                | black =>
                    have h1 : bs = mateScore e := by rw [hbs, win_score_black]
                    exact himp (Or.inr ⟨rfl, by omega⟩)
              obtain ⟨mv, v, hr, hmv, hevv, hlo', hhi'⟩ :=
                ih bs bm hbm hlo hhi (fun h => absurd h hbmne) (Or.inl hbmne)
              refine ⟨mv, v, ?_, ?_, hevv, hlo', hhi'⟩
              · simpa [emLoop, hev, hmate, himp, htie] using hr
              · rcases hmv with h | h
                · exact Or.inl (by simp [h])
                · exact Or.inr h

/-- If some move in the remaining list mates the opponent, the single-ply
loop short-circuits at the first such move, returning it with its own
evaluation, independently of the tie-break accumulator and of the
engine's random-choice function. -/
theorem emLoop_mate (e : Engine G M) (g : G) (c : Color)
    (heval : ∀ m : M, ∃ v, evaluate_game e (e.make_move g m) = some v) :
    ∀ (ms : List M) (bs : Int) (bm : List M) (m0 : M),
      m0 ∈ ms → e.is_checkmate (e.make_move g m0) (opposing_color (e.to_move g)) = true →
      ∃ m1 v, m1 ∈ ms ∧
        e.is_checkmate (e.make_move g m1) (opposing_color (e.to_move g)) = true ∧
        evaluate_game e (e.make_move g m1) = some v ∧
        ∀ ch : List M → Option M,
          emLoop { e with choice := ch } g c ms bs bm = some (m1, v) := by
  intro ms
  induction ms with
  | nil => intro bs bm m0 h0 _; cases h0
  | cons m rest ih =>
      intro bs bm m0 h0 hm0
      obtain ⟨ev, hev⟩ := heval m
      cases hmate : e.is_checkmate (e.make_move g m) (opposing_color (e.to_move g)) with
      | true =>
          refine ⟨m, ev, by simp, hmate, hev, ?_⟩
          intro ch
          have hev' : evaluate_game { e with choice := ch } (e.make_move g m) = some ev := hev
          simp [emLoop, hev', hmate]
      | false =>
          have h0' : m0 ∈ rest := by
            rcases List.mem_cons.mp h0 with h | h
            · subst h
              rw [hmate] at hm0
              cases hm0
            · exact h
          by_cases himp : (c = .white ∧ bs < ev) ∨ (c = .black ∧ ev < bs)
          · obtain ⟨m1, v, hmem, hm1, hevv, hr⟩ := ih ev [m] m0 h0' hm0
            refine ⟨m1, v, by simp [hmem], hm1, hevv, ?_⟩
            intro ch
            have hev' : evaluate_game { e with choice := ch } (e.make_move g m) = some ev := hev
            simpa [emLoop, hev', hmate, himp] using hr ch
          · by_cases htie : ev = bs
            · obtain ⟨m1, v, hmem, hm1, hevv, hr⟩ := ih bs (bm ++ [m]) m0 h0' hm0
              refine ⟨m1, v, by simp [hmem], hm1, hevv, ?_⟩
              intro ch
              have hev' : evaluate_game { e with choice := ch } (e.make_move g m) = some ev := hev
              simpa [emLoop, hev', hmate, himp, htie] using hr ch
            · obtain ⟨m1, v, hmem, hm1, hevv, hr⟩ := ih bs bm m0 h0' hm0
              refine ⟨m1, v, by simp [hmem], hm1, hevv, ?_⟩
              intro ch
              have hev' : evaluate_game { e with choice := ch } (e.make_move g m) = some ev := hev
              simpa [emLoop, hev', hmate, himp, htie] using hr ch

/-- Value characterization of the single-ply loop for White as a running
maximum, when no remaining move mates. -/
theorem emLoop_fold_white (e : Engine G M) (L : Laws e) (g : G) :
    ∀ (ms : List M) (bs : Int) (bm : List M),
      (∀ m ∈ ms, e.is_checkmate (e.make_move g m) (opposing_color (e.to_move g)) = false) →
      (∀ x ∈ bm, evaluate_game e (e.make_move g x) = some bs) →
      -(mateScore e) ≤ bs → bs ≤ mateScore e →
      (bm = [] → bs = win_score e .white) →
      (bm ≠ [] ∨ ms ≠ []) →
      ∃ mv, emLoop e g .white ms bs bm = some (mv, fmax (childEval e g) bs ms) ∧
        evaluate_game e (e.make_move g mv) = some (fmax (childEval e g) bs ms) := by
  intro ms
  induction ms with
  | nil =>
      intro bs bm _ hbm _ _ _ hne
      have hbmne : bm ≠ [] := by
        rcases hne with h | h
        · exact h
        · exact absurd rfl h
      have htot := L.choice_total bm hbmne
      cases hc : e.choice bm with
      | none => exact absurd hc htot
      | some mv =>
          exact ⟨mv, by simp [emLoop, hc, fmax_nil], hbm mv (L.choice_mem bm mv hc)⟩
  | cons m rest ih =>
      intro bs bm hnomate hbm hlo hhi hinit hne
      obtain ⟨ev, hev, hevlo, hevhi⟩ := evaluate_game_total e L (e.make_move g m)
      have hmate := hnomate m (by simp)
      have hce : childEval e g m = ev := childEval_eq e hev
      have hfold : fmax (childEval e g) bs (m :: rest) = fmax (childEval e g) (max bs ev) rest := by
        rw [fmax_cons, hce]
      by_cases himp : bs < ev
      · have hmax : max bs ev = ev := max_eq_right (le_of_lt himp)
        obtain ⟨mv, hr, hevv⟩ :=
          ih ev [m] (fun x hx => hnomate x (by simp [hx]))
            (by intro x hx; simp at hx; subst hx; exact hev) hevlo hevhi
            (by simp) (Or.inl (by simp))
        refine ⟨mv, ?_, ?_⟩
        · rw [hfold, hmax]
          simpa [emLoop, hev, hmate, himp] using hr
        · rw [hfold, hmax]
          exact hevv
      · have hmax : max bs ev = bs := max_eq_left (not_lt.mp himp)
        by_cases htie : ev = bs
        · obtain ⟨mv, hr, hevv⟩ :=
            ih bs (bm ++ [m]) (fun x hx => hnomate x (by simp [hx]))
              (by
                intro x hx
                rcases List.mem_append.mp hx with h | h
                · exact hbm x h
                · simp at h
                  subst h
                  rw [hev, htie])
              hlo hhi (by simp) (Or.inl (by simp))
          refine ⟨mv, ?_, ?_⟩
          · rw [hfold, hmax]
            simpa [emLoop, hev, hmate, himp, htie] using hr
          · rw [hfold, hmax]
            exact hevv
        · have hbmne : bm ≠ [] := by
            intro hbmnil
            have h1 : bs = -(mateScore e) := by rw [hinit hbmnil, win_score_white]
            omega
          obtain ⟨mv, hr, hevv⟩ :=
            ih bs bm (fun x hx => hnomate x (by simp [hx])) hbm hlo hhi
              (fun h => absurd h hbmne) (Or.inl hbmne)
          refine ⟨mv, ?_, ?_⟩
          · rw [hfold, hmax]
            simpa [emLoop, hev, hmate, himp, htie] using hr
          · rw [hfold, hmax]
            exact hevv

/-- Value characterization of the single-ply loop for Black as a running
minimum, when no remaining move mates. -/
theorem emLoop_fold_black (e : Engine G M) (L : Laws e) (g : G) :
    ∀ (ms : List M) (bs : Int) (bm : List M),
      (∀ m ∈ ms, e.is_checkmate (e.make_move g m) (opposing_color (e.to_move g)) = false) →
      (∀ x ∈ bm, evaluate_game e (e.make_move g x) = some bs) →
      -(mateScore e) ≤ bs → bs ≤ mateScore e →
      (bm = [] → bs = win_score e .black) →
      (bm ≠ [] ∨ ms ≠ []) →
      ∃ mv, emLoop e g .black ms bs bm = some (mv, fmin (childEval e g) bs ms) ∧
        evaluate_game e (e.make_move g mv) = some (fmin (childEval e g) bs ms) := by
  intro ms
  induction ms with
  | nil =>
      intro bs bm _ hbm _ _ _ hne
      have hbmne : bm ≠ [] := by
        rcases hne with h | h
        · exact h
        · exact absurd rfl h
      have htot := L.choice_total bm hbmne
      cases hc : e.choice bm with
      | none => exact absurd hc htot
      | some mv =>
          exact ⟨mv, by simp [emLoop, hc, fmin_nil], hbm mv (L.choice_mem bm mv hc)⟩
  | cons m rest ih =>
      intro bs bm hnomate hbm hlo hhi hinit hne
      obtain ⟨ev, hev, hevlo, hevhi⟩ := evaluate_game_total e L (e.make_move g m)
      have hmate := hnomate m (by simp)
      have hce : childEval e g m = ev := childEval_eq e hev
      have hfold : fmin (childEval e g) bs (m :: rest) = fmin (childEval e g) (min bs ev) rest := by
        rw [fmin_cons, hce]
      by_cases himp : ev < bs
      · have hmin : min bs ev = ev := min_eq_right (le_of_lt himp)
        obtain ⟨mv, hr, hevv⟩ :=
          ih ev [m] (fun x hx => hnomate x (by simp [hx]))
            (by intro x hx; simp at hx; subst hx; exact hev) hevlo hevhi
            (by simp) (Or.inl (by simp))
        refine ⟨mv, ?_, ?_⟩
        · rw [hfold, hmin]
          simpa [emLoop, hev, hmate, himp] using hr
        · rw [hfold, hmin]
          exact hevv
      · have hmin : min bs ev = bs := min_eq_left (not_lt.mp himp)
        by_cases htie : ev = bs
        · obtain ⟨mv, hr, hevv⟩ :=
            ih bs (bm ++ [m]) (fun x hx => hnomate x (by simp [hx]))
              (by
                intro x hx
                rcases List.mem_append.mp hx with h | h
                · exact hbm x h
                · simp at h
                  subst h
                  rw [hev, htie])
              hlo hhi (by simp) (Or.inl (by simp))
          refine ⟨mv, ?_, ?_⟩
          · rw [hfold, hmin]
            simpa [emLoop, hev, hmate, himp, htie] using hr
          · rw [hfold, hmin]
            exact hevv
        · have hbmne : bm ≠ [] := by
            intro hbmnil
            have h1 : bs = mateScore e := by rw [hinit hbmnil, win_score_black]
            omega
          obtain ⟨mv, hr, hevv⟩ :=
            ih bs bm (fun x hx => hnomate x (by simp [hx])) hbm hlo hhi
              (fun h => absurd h hbmne) (Or.inl hbmne)
          refine ⟨mv, ?_, ?_⟩
          · rw [hfold, hmin]
            simpa [emLoop, hev, hmate, himp, htie] using hr
          · rw [hfold, hmin]
            exact hevv

/-- Totality, membership, returned-evaluation and bounds for the
single-ply ranker on a non-ended game. -/
theorem evaluated_move_strong (e : Engine G M) (L : Laws e) (g : G) (c : Color)
    (hne : e.game_ended g = false) :
    ∃ mv v, evaluated_move e g c = some (mv, v) ∧
      mv ∈ e.legal_moves g c ∧
      evaluate_game e (e.make_move g mv) = some v ∧
      -(mateScore e) ≤ v ∧ v ≤ mateScore e := by
  obtain ⟨mv, v, hr, hmem, hev, hlo, hhi⟩ :=
    emLoop_strong e L g c (e.legal_moves g c) (win_score e c) []
      (by intro x hx; cases hx)
      (win_score_bounds e L c).1 (win_score_bounds e L c).2
      (fun _ => rfl) (Or.inr (L.no_stuck g c hne))
  refine ⟨mv, v, hr, ?_, hev, hlo, hhi⟩
  rcases hmem with h | h
  · exact h
  · cases h

/-- The score component of `minimax`, defaulted to `0` (meaningful under
`Laws` for depth at least 1, where `minimax` is total). -/
def mmScore (e : Engine G M) (d : Nat) (g : G) (c : Color) : Int :=
  ((minimax e d g c).map Prod.snd).getD 0

theorem mmScore_eq (e : Engine G M) {d : Nat} {g : G} {c : Color} {mv : Option M} {v : Int}
    (h : minimax e d g c = some (mv, v)) : mmScore e d g c = v := by
  simp [mmScore, h]

/-- Value characterization of the `minimax` loop for White: the result is
the running maximum of the children's minimax scores, provided the child
searches (at depth `d'`) are total and bounded. -/
theorem mmLoop_fold_white (e : Engine G M) (L : Laws e) (d' : Nat) (g : G)
    (IH : ∀ g', ∃ mv v, minimax e d' g' .black = some (mv, v) ∧
      -(mateScore e) ≤ v ∧ v ≤ mateScore e) :
    ∀ (ms : List M) (bs : Int) (bm : List M),
      (∀ m ∈ ms, m ∈ e.legal_moves g .white) →
      (bm = [] → bs = win_score e .white) →
      (bm ≠ [] ∨ ms ≠ []) →
      -(mateScore e) ≤ bs → bs ≤ mateScore e →
      ∃ mv, mmLoop e (fun g' => minimax e d' g' .black) g .white ms bs bm =
        some (mv, fmax (fun m => mmScore e d' (e.make_move g m) .black) bs ms) := by
  intro ms
  induction ms with
  | nil =>
      intro bs bm _ _ hne _ _
      have hbmne : bm ≠ [] := by
        rcases hne with h | h
        · exact h
        · exact absurd rfl h
      have htot := L.choice_total bm hbmne
      cases hc : e.choice bm with
      | none => exact absurd hc htot
      | some mv => exact ⟨mv, by simp [mmLoop, hc, fmax_nil]⟩
  | cons m rest ih =>
      intro bs bm hleg hinit hne hlo hhi
      obtain ⟨cmv, cv, hrec, hcvlo, hcvhi⟩ := IH (e.make_move g m)
      have hsc : mmScore e d' (e.make_move g m) .black = cv := mmScore_eq e hrec
      cases hmate : e.is_checkmate (e.make_move g m) (e.to_move (e.make_move g m)) with
      | true =>
          have hnotw : e.is_checkmate (e.make_move g m) .white = false :=
            L.mover_not_mated g .white m (hleg m (by simp))
          have htm : e.to_move (e.make_move g m) = .black := by
            cases htm : e.to_move (e.make_move g m) with
            | white => rw [htm] at hmate; rw [hmate] at hnotw; cases hnotw
            | black => rfl
          -- the ended child evaluates to the mate score, so the fold is the mate score
          have hended : e.game_ended (e.make_move g m) = true := by
            apply L.mate_ended
            rw [htm] at hmate ⊢
            exact hmate
          have hcv : cv = mateScore e := by
            have : minimax e d' (e.make_move g m) .black =
                some (none, win_score e (e.to_move (e.make_move g m))) := by
              cases d' with
              | zero =>
                  exfalso
                  simp [minimax] at hrec
              | succ k =>
                  simp only [minimax, hended, if_true]
                  have : evaluate_game e (e.make_move g m) =
                      some (win_score e (e.to_move (e.make_move g m))) := by
                    simp [evaluate_game, hended, evaluate_end_node, hmate]
                  rw [this]
                  rfl
            rw [this] at hrec
            have h2 : win_score e (e.to_move (e.make_move g m)) = cv :=
              congrArg Prod.snd (Option.some.inj hrec)
            rw [htm, win_score_black] at h2
            exact h2.symm
          have hleM : ∀ x ∈ (m :: rest), (fun y => mmScore e d' (e.make_move g y) .black) x ≤ mateScore e := by
            intro x _
            obtain ⟨mv', v', hr', _, hhi'⟩ := IH (e.make_move g x)
            show mmScore e d' (e.make_move g x) .black ≤ mateScore e
            rw [mmScore_eq e hr']
            exact hhi'
          have hfle : fmax (fun y => mmScore e d' (e.make_move g y) .black) bs (m :: rest) ≤ mateScore e :=
            fmax_le _ hhi hleM
          have hfge : mateScore e ≤ fmax (fun y => mmScore e d' (e.make_move g y) .black) bs (m :: rest) := by
            have h3 : mmScore e d' (e.make_move g m) .black ≤
                fmax (fun y => mmScore e d' (e.make_move g y) .black) bs (m :: rest) :=
              le_fmax_of_mem (fun y => mmScore e d' (e.make_move g y) .black) bs
                (show m ∈ m :: rest by simp)
            rw [hsc, hcv] at h3
            exact h3
          refine ⟨m, ?_⟩
          simp only [mmLoop, hmate, if_true]
          rw [htm, win_score_black, le_antisymm hfle hfge]
      | false =>
          have hstep : mmLoop e (fun g' => minimax e d' g' .black) g .white (m :: rest) bs bm =
              (if cv = win_score e (opposing_color Color.white) then some (some m, cv)
               else if (Color.white = Color.white ∧ bs < cv) ∨ (Color.white = Color.black ∧ cv < bs) then
                 mmLoop e (fun g' => minimax e d' g' .black) g .white rest cv [m]
               else if cv = bs then
                 mmLoop e (fun g' => minimax e d' g' .black) g .white rest bs (bm ++ [m])
               else
                 mmLoop e (fun g' => minimax e d' g' .black) g .white rest bs bm) := by
            simp only [mmLoop, hmate, if_false, Bool.false_eq_true, hrec]
          have hfold : fmax (fun y => mmScore e d' (e.make_move g y) .black) bs (m :: rest) =
              fmax (fun y => mmScore e d' (e.make_move g y) .black) (max bs cv) rest := by
            rw [fmax_cons, hsc]
          have hleM : ∀ x ∈ rest, (fun y => mmScore e d' (e.make_move g y) .black) x ≤ mateScore e := by
            intro x _
            obtain ⟨mv', v', hr', _, hhi'⟩ := IH (e.make_move g x)
            show mmScore e d' (e.make_move g x) .black ≤ mateScore e
            rw [mmScore_eq e hr']
            exact hhi'
          by_cases hsent : cv = win_score e (opposing_color Color.white)
          · have hcv : cv = mateScore e := by
              rw [hsent]
              rfl
            have hfle : fmax (fun y => mmScore e d' (e.make_move g y) .black) (max bs cv) rest ≤ mateScore e :=
              fmax_le _ (max_le hhi (le_of_eq hcv)) hleM
            have hfge : mateScore e ≤ fmax (fun y => mmScore e d' (e.make_move g y) .black) (max bs cv) rest := by
              refine le_trans ?_ (le_fmax_init _ _ rest)
              rw [hcv]
              exact le_max_right bs (mateScore e)
            refine ⟨m, ?_⟩
            rw [hstep, if_pos hsent, hfold, le_antisymm hfle hfge, hcv]
          · by_cases himp : bs < cv
            · have hmax : max bs cv = cv := max_eq_right (le_of_lt himp)
              obtain ⟨mv, hr⟩ := ih cv [m] (fun x hx => hleg x (by simp [hx]))
                (by simp) (Or.inl (by simp)) hcvlo hcvhi
              refine ⟨mv, ?_⟩
              rw [hstep, if_neg hsent, if_pos (Or.inl ⟨rfl, himp⟩), hfold, hmax]
              exact hr
            · have hmax : max bs cv = bs := max_eq_left (not_lt.mp himp)
              by_cases htie : cv = bs
              · obtain ⟨mv, hr⟩ := ih bs (bm ++ [m]) (fun x hx => hleg x (by simp [hx]))
                  (by simp) (Or.inl (by simp)) hlo hhi
                refine ⟨mv, ?_⟩
                rw [hstep, if_neg hsent, if_neg (by simp [himp]), if_pos htie, hfold, hmax]
                exact hr
              · have hbmne : bm ≠ [] := by
                  intro hbmnil
                  have h1 : bs = -(mateScore e) := by rw [hinit hbmnil, win_score_white]
                  omega
                obtain ⟨mv, hr⟩ := ih bs bm (fun x hx => hleg x (by simp [hx]))
                  (fun h => absurd h hbmne) (Or.inl hbmne) hlo hhi
                refine ⟨mv, ?_⟩
                rw [hstep, if_neg hsent, if_neg (by simp [himp]), if_neg htie, hfold, hmax]
                exact hr

/-- Value characterization of the `minimax` loop for Black: the result is
the running minimum of the children's minimax scores. -/
theorem mmLoop_fold_black (e : Engine G M) (L : Laws e) (d' : Nat) (g : G)
    (IH : ∀ g', ∃ mv v, minimax e d' g' .white = some (mv, v) ∧
      -(mateScore e) ≤ v ∧ v ≤ mateScore e) :
    ∀ (ms : List M) (bs : Int) (bm : List M),
      (∀ m ∈ ms, m ∈ e.legal_moves g .black) →
      (bm = [] → bs = win_score e .black) →
      (bm ≠ [] ∨ ms ≠ []) →
      -(mateScore e) ≤ bs → bs ≤ mateScore e →
      ∃ mv, mmLoop e (fun g' => minimax e d' g' .white) g .black ms bs bm =
        some (mv, fmin (fun m => mmScore e d' (e.make_move g m) .white) bs ms) := by
  intro ms
  induction ms with
  | nil =>
      intro bs bm _ _ hne _ _
      have hbmne : bm ≠ [] := by
        rcases hne with h | h
        · exact h
        · exact absurd rfl h
      have htot := L.choice_total bm hbmne
      cases hc : e.choice bm with
      | none => exact absurd hc htot
      | some mv => exact ⟨mv, by simp [mmLoop, hc, fmin_nil]⟩
  | cons m rest ih =>
      intro bs bm hleg hinit hne hlo hhi
      obtain ⟨cmv, cv, hrec, hcvlo, hcvhi⟩ := IH (e.make_move g m)
      have hsc : mmScore e d' (e.make_move g m) .white = cv := mmScore_eq e hrec
      cases hmate : e.is_checkmate (e.make_move g m) (e.to_move (e.make_move g m)) with
      | true =>
          have hnotb : e.is_checkmate (e.make_move g m) .black = false :=
            L.mover_not_mated g .black m (hleg m (by simp))
          have htm : e.to_move (e.make_move g m) = .white := by
            cases htm : e.to_move (e.make_move g m) with
            | black => rw [htm] at hmate; rw [hmate] at hnotb; cases hnotb
            | white => rfl
          have hended : e.game_ended (e.make_move g m) = true := by
            apply L.mate_ended
            rw [htm] at hmate ⊢
            exact hmate
          have hcv : cv = -(mateScore e) := by
            have : minimax e d' (e.make_move g m) .white =
                some (none, win_score e (e.to_move (e.make_move g m))) := by
              cases d' with
              | zero =>
                  exfalso
                  simp [minimax] at hrec
              | succ k =>
                  simp only [minimax, hended, if_true]
                  have : evaluate_game e (e.make_move g m) =
                      some (win_score e (e.to_move (e.make_move g m))) := by
                    simp [evaluate_game, hended, evaluate_end_node, hmate]
                  rw [this]
                  rfl
            rw [this] at hrec
            have h2 : win_score e (e.to_move (e.make_move g m)) = cv :=
              congrArg Prod.snd (Option.some.inj hrec)
            rw [htm, win_score_white] at h2
            exact h2.symm
          have hgeM : ∀ x ∈ (m :: rest), -(mateScore e) ≤ (fun y => mmScore e d' (e.make_move g y) .white) x := by
            intro x _
            obtain ⟨mv', v', hr', hlo', _⟩ := IH (e.make_move g x)
            show -(mateScore e) ≤ mmScore e d' (e.make_move g x) .white
            rw [mmScore_eq e hr']
            exact hlo'
          have hfge : -(mateScore e) ≤ fmin (fun y => mmScore e d' (e.make_move g y) .white) bs (m :: rest) :=
            le_fmin _ hlo hgeM
          have hfle : fmin (fun y => mmScore e d' (e.make_move g y) .white) bs (m :: rest) ≤ -(mateScore e) := by
            have h3 : fmin (fun y => mmScore e d' (e.make_move g y) .white) bs (m :: rest) ≤
                mmScore e d' (e.make_move g m) .white :=
              fmin_le_of_mem (fun y => mmScore e d' (e.make_move g y) .white) bs
                (show m ∈ m :: rest by simp)
            rw [hsc, hcv] at h3
            exact h3
          refine ⟨m, ?_⟩
          simp only [mmLoop, hmate, if_true]
          rw [htm, win_score_white, le_antisymm hfle hfge]
      | false =>
          have hstep : mmLoop e (fun g' => minimax e d' g' .white) g .black (m :: rest) bs bm =
              (if cv = win_score e (opposing_color Color.black) then some (some m, cv)
               else if (Color.black = Color.white ∧ bs < cv) ∨ (Color.black = Color.black ∧ cv < bs) then
                 mmLoop e (fun g' => minimax e d' g' .white) g .black rest cv [m]
               else if cv = bs then
                 mmLoop e (fun g' => minimax e d' g' .white) g .black rest bs (bm ++ [m])
               else
                 mmLoop e (fun g' => minimax e d' g' .white) g .black rest bs bm) := by
            simp only [mmLoop, hmate, if_false, Bool.false_eq_true, hrec]
          have hfold : fmin (fun y => mmScore e d' (e.make_move g y) .white) bs (m :: rest) =
              fmin (fun y => mmScore e d' (e.make_move g y) .white) (min bs cv) rest := by
            rw [fmin_cons, hsc]
          have hgeM : ∀ x ∈ rest, -(mateScore e) ≤ (fun y => mmScore e d' (e.make_move g y) .white) x := by
            intro x _
            obtain ⟨mv', v', hr', hlo', _⟩ := IH (e.make_move g x)
            show -(mateScore e) ≤ mmScore e d' (e.make_move g x) .white
            rw [mmScore_eq e hr']
            exact hlo'
          by_cases hsent : cv = win_score e (opposing_color Color.black)
          · have hcv : cv = -(mateScore e) := by
              rw [hsent, show opposing_color Color.black = Color.white from rfl, win_score_white]
            have hfge : -(mateScore e) ≤ fmin (fun y => mmScore e d' (e.make_move g y) .white) (min bs cv) rest :=
              le_fmin _ (le_min hlo (le_of_eq hcv.symm)) hgeM
            have hfle : fmin (fun y => mmScore e d' (e.make_move g y) .white) (min bs cv) rest ≤ -(mateScore e) := by
              refine le_trans (fmin_le_init _ _ rest) ?_
              rw [hcv]
              exact min_le_right bs (-(mateScore e))
            refine ⟨m, ?_⟩
            rw [hstep, if_pos hsent, hfold, le_antisymm hfle hfge, hcv]
          · by_cases himp : cv < bs
            · have hmin : min bs cv = cv := min_eq_right (le_of_lt himp)
              obtain ⟨mv, hr⟩ := ih cv [m] (fun x hx => hleg x (by simp [hx]))
                (by simp) (Or.inl (by simp)) hcvlo hcvhi
              refine ⟨mv, ?_⟩
              rw [hstep, if_neg hsent, if_pos (Or.inr ⟨rfl, himp⟩), hfold, hmin]
              exact hr
            · have hmin : min bs cv = bs := min_eq_left (not_lt.mp himp)
              by_cases htie : cv = bs
              · obtain ⟨mv, hr⟩ := ih bs (bm ++ [m]) (fun x hx => hleg x (by simp [hx]))
                  (by simp) (Or.inl (by simp)) hlo hhi
                refine ⟨mv, ?_⟩
                rw [hstep, if_neg hsent, if_neg (by simp [himp]), if_pos htie, hfold, hmin]
                exact hr
              · have hbmne : bm ≠ [] := by
                  intro hbmnil
                  have h1 : bs = mateScore e := by rw [hinit hbmnil, win_score_black]
                  omega
                obtain ⟨mv, hr⟩ := ih bs bm (fun x hx => hleg x (by simp [hx]))
                  (fun h => absurd h hbmne) (Or.inl hbmne) hlo hhi
                refine ⟨mv, ?_⟩
                rw [hstep, if_neg hsent, if_neg (by simp [himp]), if_neg htie, hfold, hmin]
                exact hr

/-- Totality and sentinel-boundedness of `minimax` at any depth at least 1
under the rules-engine laws. -/
theorem mm_spec (e : Engine G M) (L : Laws e) :
    ∀ (n : Nat) (g : G) (c : Color),
      ∃ mv v, minimax e (n + 1) g c = some (mv, v) ∧
        -(mateScore e) ≤ v ∧ v ≤ mateScore e := by
  intro n
  induction n with
  | zero =>
      intro g c
      cases hend : e.game_ended g with
      | true =>
          obtain ⟨v, hv, hlo, hhi⟩ := evaluate_game_total e L g
          exact ⟨none, v, by simp [minimax, hend, hv], hlo, hhi⟩
      | false =>
          obtain ⟨mv, v, hr, _, _, hlo, hhi⟩ := evaluated_move_strong e L g c hend
          exact ⟨some mv, v, by simp [minimax, hend, hr], hlo, hhi⟩
  | succ k ih =>
      intro g c
      cases hend : e.game_ended g with
      | true =>
          obtain ⟨v, hv, hlo, hhi⟩ := evaluate_game_total e L g
          exact ⟨none, v, by simp [minimax, hend, hv], hlo, hhi⟩
      | false =>
          obtain ⟨sm, se, hr, _, _, hselo, hsehi⟩ := evaluated_move_strong e L g c hend
          by_cases hsent : se = win_score e (opposing_color c)
          · exact ⟨some sm, se, by simp [minimax, hend, hr, hsent], hselo, hsehi⟩
          · cases c with
            | white =>
                obtain ⟨mv, hloop⟩ := mmLoop_fold_white e L (k + 1) g
                  (fun g' => ih g' .black)
                  (e.legal_moves g .white) (win_score e .white) []
                  (fun x hx => hx) (fun _ => rfl)
                  (Or.inr (L.no_stuck g .white hend))
                  (win_score_bounds e L .white).1 (win_score_bounds e L .white).2
                refine ⟨mv, fmax (fun m => mmScore e (k + 1) (e.make_move g m) .black)
                  (win_score e .white) (e.legal_moves g .white), ?_, ?_, ?_⟩
                · show minimax e (k + 2) g .white = _
                  simp only [minimax, hend, if_false, Bool.false_eq_true, hr,
                    Nat.succ_ne_zero, false_or, hsent, if_false]
                  show mmLoop e (fun g' => minimax e (k + 1) g' (opposing_color Color.white))
                      g .white (e.legal_moves g .white) (win_score e Color.white) [] = _
                  show mmLoop e (fun g' => minimax e (k + 1) g' Color.black)
                      g .white (e.legal_moves g .white) (win_score e Color.white) [] = _
                  exact hloop
                · refine le_trans ?_ (le_fmax_init _ _ _)
                  rw [win_score_white]
                · refine fmax_le _ (win_score_bounds e L .white).2 ?_
                  intro x _
                  obtain ⟨mv', v', hr', _, hhi'⟩ := ih (e.make_move g x) .black
                  show mmScore e (k + 1) (e.make_move g x) .black ≤ mateScore e
                  rw [mmScore_eq e hr']
                  exact hhi'
            | black =>
                obtain ⟨mv, hloop⟩ := mmLoop_fold_black e L (k + 1) g
                  (fun g' => ih g' .white)
                  (e.legal_moves g .black) (win_score e .black) []
                  (fun x hx => hx) (fun _ => rfl)
                  (Or.inr (L.no_stuck g .black hend))
                  (win_score_bounds e L .black).1 (win_score_bounds e L .black).2
                refine ⟨mv, fmin (fun m => mmScore e (k + 1) (e.make_move g m) .white)
                  (win_score e .black) (e.legal_moves g .black), ?_, ?_, ?_⟩
                · show minimax e (k + 2) g .black = _
                  simp only [minimax, hend, if_false, Bool.false_eq_true, hr,
                    Nat.succ_ne_zero, false_or, hsent, if_false]
                  show mmLoop e (fun g' => minimax e (k + 1) g' (opposing_color Color.black))
                      g .black (e.legal_moves g .black) (win_score e Color.black) [] = _
                  show mmLoop e (fun g' => minimax e (k + 1) g' Color.white)
                      g .black (e.legal_moves g .black) (win_score e Color.black) [] = _
                  exact hloop
                · refine le_fmin _ (win_score_bounds e L .black).1 ?_
                  intro x _
                  obtain ⟨mv', v', hr', hlo', _⟩ := ih (e.make_move g x) .white
                  show -(mateScore e) ≤ mmScore e (k + 1) (e.make_move g x) .white
                  rw [mmScore_eq e hr']
                  exact hlo'
                · refine le_trans (fmin_le_init _ _ _) ?_
                  rw [win_score_black]

/-- Extended-score view of a child's minimax score (used to compare the
pruned search against the plain search). -/
def childScoreEV (e : Engine G M) (d : Nat) (g : G) (c : Color) (m : M) : EV :=
  iv (mmScore e d (e.make_move g m) c)

theorem fmax_cons_bot {α β : Type} [LinearOrder α] [OrderBot α] (f : β → α) (x : β) (l : List β) :
    fmax f ⊥ (x :: l) = max (f x) (fmax f ⊥ l) := by
  have h1 := fmax_shift f (f x) ⊥ l
  rw [max_eq_left bot_le] at h1
  rw [fmax_cons, max_eq_right bot_le, h1]

theorem fmin_cons_top {α β : Type} [LinearOrder α] [OrderTop α] (f : β → α) (x : β) (l : List β) :
    fmin f ⊤ (x :: l) = min (f x) (fmin f ⊤ l) := by
  have h1 := fmin_shift f (f x) ⊤ l
  rw [min_eq_left le_top] at h1
  rw [fmin_cons, min_eq_right le_top, h1]

theorem iv_fmax {β : Type} (f : β → Int) (a : Int) (l : List β) :
    iv (fmax f a l) = fmax (fun x => iv (f x)) (iv a) l := by
  induction l generalizing a with
  | nil => rfl
  | cons x xs ih =>
      simp only [fmax_cons, ih, iv_max]

theorem iv_fmin {β : Type} (f : β → Int) (a : Int) (l : List β) :
    iv (fmin f a l) = fmin (fun x => iv (f x)) (iv a) l := by
  induction l generalizing a with
  | nil => rfl
  | cons x xs ih =>
      simp only [fmin_cons, ih, iv_min]

/-- Fail-hard window specification of the White branch loop of the pruned
search: the result exists, never decreases below the incoming `alpha`, is
at most `max alpha` (running maximum of the children's minimax scores),
and at least `min beta` of that running maximum. -/
theorem abLoopW_spec (e : Engine G M) (L : Laws e) (d' : Nat) (g : G)
    (IH : ∀ g' (a b : EV), a ≤ iv (mateScore e) → iv (-(mateScore e)) ≤ b →
      ∃ mva s, alpha_beta e d' g' .black a b = some (mva, s) ∧
        s ≤ max a (iv (mmScore e d' g' .black)) ∧
        min b (iv (mmScore e d' g' .black)) ≤ s)
    (mmB : ∀ g', ∃ mv v, minimax e d' g' .black = some (mv, v) ∧
      -(mateScore e) ≤ v ∧ v ≤ mateScore e)
    (beta : EV) (hbeta : iv (-(mateScore e)) ≤ beta) :
    ∀ (ms : List M) (alpha : EV) (bm : List M), alpha ≤ iv (mateScore e) →
      ∃ mva s,
        abLoopW e (fun g' a b => alpha_beta e d' g' .black a b) g beta ms alpha bm =
          some (mva, s) ∧
        alpha ≤ s ∧
        s ≤ max alpha (fmax (childScoreEV e d' g .black) ⊥ ms) ∧
        min beta (fmax (childScoreEV e d' g .black) ⊥ ms) ≤ s := by
  intro ms
  induction ms with
  | nil =>
      intro alpha bm halpha
      cases hbm : bm.isEmpty with
      | true =>
          refine ⟨none, alpha, by simp [abLoopW, hbm], le_refl alpha, ?_, ?_⟩
          · exact le_max_left _ _
          · rw [fmax_nil]
            exact le_trans (min_le_right beta ⊥) bot_le
      | false =>
          have hbmne : bm ≠ [] := by
            intro h
            rw [h] at hbm
            simp at hbm
          have htot := L.choice_total bm hbmne
          cases hc : e.choice bm with
          | none => exact absurd hc htot
          | some mv =>
              refine ⟨some mv, alpha, by simp [abLoopW, hbm, hc], le_refl alpha, ?_, ?_⟩
              · exact le_max_left _ _
              · rw [fmax_nil]
                exact le_trans (min_le_right beta ⊥) bot_le
  | cons m rest ih =>
      intro alpha bm halpha
      obtain ⟨cmv, s1, hrec, hP1, hP2⟩ := IH (e.make_move g m) alpha beta halpha hbeta
      obtain ⟨cmv', v1, hmm1, hv1lo, hv1hi⟩ := mmB (e.make_move g m)
      have hsc : mmScore e d' (e.make_move g m) .black = v1 := mmScore_eq e hmm1
      rw [hsc] at hP1 hP2
      have hfm : childScoreEV e d' g .black m = iv v1 := by
        rw [childScoreEV, hsc]
      have hv1le : iv v1 ≤ iv (mateScore e) := iv_le_iv.mpr hv1hi
      have hv1ge : iv (-(mateScore e)) ≤ iv v1 := iv_le_iv.mpr hv1lo
      have hfoldcons : fmax (childScoreEV e d' g .black) ⊥ (m :: rest) =
          max (iv v1) (fmax (childScoreEV e d' g .black) ⊥ rest) := by
        rw [fmax_cons_bot, hfm]
      have hfoldle : fmax (childScoreEV e d' g .black) ⊥ (m :: rest) ≤ iv (mateScore e) := by
        refine fmax_le _ bot_le ?_
        intro x _
        obtain ⟨mv', v', hr', _, hhi'⟩ := mmB (e.make_move g x)
        show childScoreEV e d' g .black x ≤ iv (mateScore e)
        rw [childScoreEV, mmScore_eq e hr']
        exact iv_le_iv.mpr hhi'
      have hmemcons : iv v1 ≤ fmax (childScoreEV e d' g .black) ⊥ (m :: rest) := by
        rw [hfoldcons]
        exact le_max_left _ _
      have hstep : abLoopW e (fun g' a b => alpha_beta e d' g' .black a b) g beta (m :: rest) alpha bm =
          (if s1 = iv (win_score e .black) then some (some m, s1)
           else
             if alpha < s1 then
               if beta < s1 then (e.choice [m]).map (fun mv => (some mv, s1))
               else abLoopW e (fun g' a b => alpha_beta e d' g' .black a b) g beta rest s1 [m]
             else abLoopW e (fun g' a b => alpha_beta e d' g' .black a b) g beta rest alpha
               (if s1 = alpha then bm ++ [m] else bm)) := by
        simp only [abLoopW, hrec]
      by_cases hsent : s1 = iv (win_score e .black)
      · have hs1 : s1 = iv (mateScore e) := by rw [hsent, win_score_black]
        refine ⟨some m, s1, by rw [hstep, if_pos hsent], ?_, ?_, ?_⟩
        · rw [hs1]
          exact halpha
        · exact le_trans hP1 (max_le_max (le_refl alpha) hmemcons)
        · rw [hs1]
          exact le_trans (min_le_right _ _) hfoldle
      · by_cases himp : alpha < s1
        · by_cases hcut : beta < s1
          · have htot := L.choice_total [m] (by simp)
            cases hc : e.choice [m] with
            | none => exact absurd hc htot
            | some mv =>
                refine ⟨some mv, s1, ?_, le_of_lt himp, ?_, ?_⟩
                · rw [hstep, if_neg hsent, if_pos himp, if_pos hcut, hc]
                  rfl
                · exact le_trans hP1 (max_le_max (le_refl alpha) hmemcons)
                · exact le_trans (min_le_left _ _) (le_of_lt hcut)
          · have hs1le : s1 ≤ iv (mateScore e) :=
              le_trans hP1 (max_le halpha hv1le)
            obtain ⟨mva, s, hr, hge, hP1r, hP2r⟩ := ih s1 [m] hs1le
            refine ⟨mva, s, ?_, le_trans (le_of_lt himp) hge, ?_, ?_⟩
            · rw [hstep, if_neg hsent, if_pos himp, if_neg hcut]
              exact hr
            · refine le_trans hP1r ?_
              rw [hfoldcons, ← max_assoc]
              exact max_le_max hP1 (le_refl _)
            · rw [hfoldcons, min_max_distrib_left]
              exact max_le (le_trans hP2 hge) hP2r
        · obtain ⟨mva, s, hr, hge, hP1r, hP2r⟩ := ih alpha (if s1 = alpha then bm ++ [m] else bm) halpha
          refine ⟨mva, s, ?_, hge, ?_, ?_⟩
          · rw [hstep, if_neg hsent, if_neg himp]
            exact hr
          · refine le_trans hP1r (max_le_max (le_refl alpha) ?_)
            rw [hfoldcons]
            exact le_max_right _ _
          · rw [hfoldcons, min_max_distrib_left]
            exact max_le (le_trans hP2 (le_trans (not_lt.mp himp) hge)) hP2r

/-- Fail-hard window specification of the Black branch loop of the pruned
search, dual to `abLoopW_spec`. -/
theorem abLoopB_spec (e : Engine G M) (L : Laws e) (d' : Nat) (g : G)
    (IH : ∀ g' (a b : EV), a ≤ iv (mateScore e) → iv (-(mateScore e)) ≤ b →
      ∃ mva s, alpha_beta e d' g' .white a b = some (mva, s) ∧
        s ≤ max a (iv (mmScore e d' g' .white)) ∧
        min b (iv (mmScore e d' g' .white)) ≤ s)
    (mmW : ∀ g', ∃ mv v, minimax e d' g' .white = some (mv, v) ∧
      -(mateScore e) ≤ v ∧ v ≤ mateScore e)
    (alpha : EV) (halpha : alpha ≤ iv (mateScore e)) :
    ∀ (ms : List M) (beta : EV) (bm : List M), iv (-(mateScore e)) ≤ beta →
      ∃ mva s,
        abLoopB e (fun g' a b => alpha_beta e d' g' .white a b) g alpha ms beta bm =
          some (mva, s) ∧
        s ≤ beta ∧
        min beta (fmin (childScoreEV e d' g .white) ⊤ ms) ≤ s ∧
        s ≤ max alpha (fmin (childScoreEV e d' g .white) ⊤ ms) := by
  intro ms
  induction ms with
  | nil =>
      intro beta bm hbeta
      cases hbm : bm.isEmpty with
      | true =>
          refine ⟨none, beta, by simp [abLoopB, hbm], le_refl beta, ?_, ?_⟩
          · exact min_le_left _ _
          · rw [fmin_nil]
            exact le_trans le_top (le_max_right alpha ⊤)
      | false =>
          have hbmne : bm ≠ [] := by
            intro h
            rw [h] at hbm
            simp at hbm
          have htot := L.choice_total bm hbmne
          cases hc : e.choice bm with
          | none => exact absurd hc htot
          | some mv =>
              refine ⟨some mv, beta, by simp [abLoopB, hbm, hc], le_refl beta, ?_, ?_⟩
              · exact min_le_left _ _
              · rw [fmin_nil]
                exact le_trans le_top (le_max_right alpha ⊤)
  | cons m rest ih =>
      intro beta bm hbeta
      obtain ⟨cmv, s1, hrec, hP2, hP1⟩ := IH (e.make_move g m) alpha beta halpha hbeta
      obtain ⟨cmv', v1, hmm1, hv1lo, hv1hi⟩ := mmW (e.make_move g m)
      have hsc : mmScore e d' (e.make_move g m) .white = v1 := mmScore_eq e hmm1
      rw [hsc] at hP1 hP2
      have hfm : childScoreEV e d' g .white m = iv v1 := by
        rw [childScoreEV, hsc]
      have hv1le : iv v1 ≤ iv (mateScore e) := iv_le_iv.mpr hv1hi
      have hv1ge : iv (-(mateScore e)) ≤ iv v1 := iv_le_iv.mpr hv1lo
      have hfoldcons : fmin (childScoreEV e d' g .white) ⊤ (m :: rest) =
          min (iv v1) (fmin (childScoreEV e d' g .white) ⊤ rest) := by
        rw [fmin_cons_top, hfm]
      have hfoldge : iv (-(mateScore e)) ≤ fmin (childScoreEV e d' g .white) ⊤ (m :: rest) := by
        refine le_fmin _ le_top ?_
        intro x _
        obtain ⟨mv', v', hr', hlo', _⟩ := mmW (e.make_move g x)
        show iv (-(mateScore e)) ≤ childScoreEV e d' g .white x
        rw [childScoreEV, mmScore_eq e hr']
        exact iv_le_iv.mpr hlo'
      have hmemcons : fmin (childScoreEV e d' g .white) ⊤ (m :: rest) ≤ iv v1 := by
        rw [hfoldcons]
        exact min_le_left _ _
      have hstep : abLoopB e (fun g' a b => alpha_beta e d' g' .white a b) g alpha (m :: rest) beta bm =
          (if s1 = iv (win_score e .white) then some (some m, s1)
           else
             if s1 < beta then
               if s1 < alpha then (e.choice [m]).map (fun mv => (some mv, s1))
               else abLoopB e (fun g' a b => alpha_beta e d' g' .white a b) g alpha rest s1 [m]
             else abLoopB e (fun g' a b => alpha_beta e d' g' .white a b) g alpha rest beta
               (if s1 = beta then bm ++ [m] else bm)) := by
        simp only [abLoopB, hrec]
      by_cases hsent : s1 = iv (win_score e .white)
      · have hs1 : s1 = iv (-(mateScore e)) := by rw [hsent, win_score_white]
        refine ⟨some m, s1, by rw [hstep, if_pos hsent], ?_, ?_, ?_⟩
        · rw [hs1]
          exact hbeta
        · rcases min_le_iff.mp hP1 with hb | hv
          · exact le_trans (min_le_left _ _) hb
          · have hveq : iv v1 = iv (-(mateScore e)) :=
              le_antisymm (by rw [← hs1]; exact hv) hv1ge
            refine le_trans (min_le_right _ _) ?_
            rw [hs1, ← hveq]
            exact hmemcons
        · refine le_trans ?_ (le_max_right alpha _)
          rw [hs1]
          exact hfoldge
      · by_cases himp : s1 < beta
        · by_cases hcut : s1 < alpha
          · have htot := L.choice_total [m] (by simp)
            cases hc : e.choice [m] with
            | none => exact absurd hc htot
            | some mv =>
                refine ⟨some mv, s1, ?_, le_of_lt himp, ?_, ?_⟩
                · rw [hstep, if_neg hsent, if_pos himp, if_pos hcut, hc]
                  rfl
                · exact le_trans (min_le_min (le_refl beta) hmemcons) hP1
                · exact le_trans (le_of_lt hcut) (le_max_left _ _)
          · have hs1ge : iv (-(mateScore e)) ≤ s1 :=
              le_trans (le_min hbeta hv1ge) hP1
            obtain ⟨mva, s, hr, hle, hP1r, hP2r⟩ := ih s1 [m] hs1ge
            refine ⟨mva, s, ?_, le_trans hle (le_of_lt himp), ?_, ?_⟩
            · rw [hstep, if_neg hsent, if_pos himp, if_neg hcut]
              exact hr
            · refine le_trans ?_ hP1r
              rw [hfoldcons, ← min_assoc]
              exact min_le_min hP1 (le_refl _)
            · rw [hfoldcons, max_min_distrib_left]
              exact le_min (le_trans hle hP2) hP2r
        · obtain ⟨mva, s, hr, hle, hP1r, hP2r⟩ := ih beta (if s1 = beta then bm ++ [m] else bm) hbeta
          refine ⟨mva, s, ?_, hle, ?_, ?_⟩
          · rw [hstep, if_neg hsent, if_neg himp]
            exact hr
          · refine le_trans (min_le_min (le_refl beta) ?_) hP1r
            rw [hfoldcons]
            exact min_le_right _ _
          · rw [hfoldcons, max_min_distrib_left]
            exact le_min (le_trans hle (le_trans (not_lt.mp himp) hP2)) hP2r

/-- Fail-hard window specification of the pruned search at the node
level, relative to the minimax score, at every depth at least 1. -/
theorem ab_spec (e : Engine G M) (L : Laws e) :
    ∀ (n : Nat) (g : G) (c : Color) (a b : EV),
      a ≤ iv (mateScore e) → iv (-(mateScore e)) ≤ b →
      ∃ mva s, alpha_beta e (n + 1) g c a b = some (mva, s) ∧
        s ≤ max a (iv (mmScore e (n + 1) g c)) ∧
        min b (iv (mmScore e (n + 1) g c)) ≤ s := by
  intro n
  induction n with
  | zero =>
      intro g c a b ha hb
      cases hend : e.game_ended g with
      | true =>
          obtain ⟨v, hv, _, _⟩ := evaluate_game_total e L g
          have hmm : minimax e 1 g c = some (none, v) := by simp [minimax, hend, hv]
          have hms : mmScore e 1 g c = v := mmScore_eq e hmm
          refine ⟨none, iv v, by simp [alpha_beta, hend, hv], ?_, ?_⟩
          · rw [hms]
            exact le_max_right _ _
          · rw [hms]
            exact min_le_right _ _
      | false =>
          obtain ⟨sm, se, hr, _, _, _, _⟩ := evaluated_move_strong e L g c hend
          have hmm : minimax e 1 g c = some (some sm, se) := by simp [minimax, hend, hr]
          have hms : mmScore e 1 g c = se := mmScore_eq e hmm
          refine ⟨some sm, iv se, by simp [alpha_beta, hend, hr], ?_, ?_⟩
          · rw [hms]
            exact le_max_right _ _
          · rw [hms]
            exact min_le_right _ _
  | succ k ihab =>
      intro g c a b ha hb
      cases hend : e.game_ended g with
      | true =>
          obtain ⟨v, hv, _, _⟩ := evaluate_game_total e L g
          have hmm : minimax e (k + 2) g c = some (none, v) := by simp [minimax, hend, hv]
          have hms : mmScore e (k + 2) g c = v := mmScore_eq e hmm
          refine ⟨none, iv v, by simp [alpha_beta, hend, hv], ?_, ?_⟩
          · rw [hms]
            exact le_max_right _ _
          · rw [hms]
            exact min_le_right _ _
      | false =>
          obtain ⟨sm, se, hr, _, _, _, _⟩ := evaluated_move_strong e L g c hend
          by_cases hsent : se = win_score e (opposing_color c)
          · have hmm : minimax e (k + 2) g c = some (some sm, se) := by
              simp [minimax, hend, hr, hsent]
            have hms : mmScore e (k + 2) g c = se := mmScore_eq e hmm
            refine ⟨some sm, iv se, by simp [alpha_beta, hend, hr, hsent], ?_, ?_⟩
            · rw [hms]
              exact le_max_right _ _
            · rw [hms]
              exact min_le_right _ _
          · cases c with
            | white =>
                obtain ⟨mvm, hloop⟩ := mmLoop_fold_white e L (k + 1) g
                  (fun g' => mm_spec e L k g' .black)
                  (e.legal_moves g .white) (win_score e .white) []
                  (fun x hx => hx) (fun _ => rfl)
                  (Or.inr (L.no_stuck g .white hend))
                  (win_score_bounds e L .white).1 (win_score_bounds e L .white).2
                have hmm : minimax e (k + 2) g .white =
                    some (mvm, fmax (fun m => mmScore e (k + 1) (e.make_move g m) .black)
                      (win_score e .white) (e.legal_moves g .white)) := by
                  show minimax e (k + 2) g .white = _
                  simp only [minimax, hend, if_false, Bool.false_eq_true, hr,
                    Nat.succ_ne_zero, false_or, hsent, if_false]
                  show mmLoop e (fun g' => minimax e (k + 1) g' (opposing_color Color.white))
                      g .white (e.legal_moves g .white) (win_score e Color.white) [] = _
                  show mmLoop e (fun g' => minimax e (k + 1) g' Color.black)
                      g .white (e.legal_moves g .white) (win_score e Color.white) [] = _
                  exact hloop
                have hms := mmScore_eq e hmm
                have hivV : iv (fmax (fun m => mmScore e (k + 1) (e.make_move g m) .black)
                    (win_score e .white) (e.legal_moves g .white)) =
                    fmax (childScoreEV e (k + 1) g .black) ⊥ (e.legal_moves g .white) := by
                  rw [iv_fmax]
                  have hconv : fmax (fun x => iv (mmScore e (k + 1) (e.make_move g x) .black))
                      (iv (win_score e .white)) (e.legal_moves g .white) =
                      fmax (childScoreEV e (k + 1) g .black)
                        (iv (win_score e .white)) (e.legal_moves g .white) := rfl
                  rw [hconv]
                  have hshift : fmax (childScoreEV e (k + 1) g .black)
                      (max (iv (win_score e .white)) ⊥) (e.legal_moves g .white) =
                      max (iv (win_score e .white))
                        (fmax (childScoreEV e (k + 1) g .black) ⊥ (e.legal_moves g .white)) :=
                    fmax_shift _ _ _ _
                  rw [max_eq_left bot_le] at hshift
                  rw [hshift]
                  refine max_eq_right ?_
                  obtain ⟨m0, hm0⟩ := List.exists_mem_of_ne_nil _ (L.no_stuck g .white hend)
                  refine le_trans ?_ (le_fmax_of_mem (childScoreEV e (k + 1) g .black) ⊥ hm0)
                  obtain ⟨mv', v', hr', hlo', _⟩ := mm_spec e L k (e.make_move g m0) .black
                  show iv (win_score e .white) ≤ childScoreEV e (k + 1) g .black m0
                  rw [childScoreEV, mmScore_eq e hr', win_score_white]
                  exact iv_le_iv.mpr hlo'
                obtain ⟨mva, s, habr, _, hP1, hP2⟩ := abLoopW_spec e L (k + 1) g
                  (fun g' a' b' ha' hb' => ihab g' .black a' b' ha' hb')
                  (fun g' => mm_spec e L k g' .black) b hb
                  (e.legal_moves g .white) a [] ha
                have hab : alpha_beta e (k + 2) g .white a b = some (mva, s) := by
                  show alpha_beta e (k + 2) g .white a b = _
                  simp only [alpha_beta, hend, if_false, Bool.false_eq_true, hr,
                    Nat.succ_ne_zero, false_or, hsent, if_false]
                  exact habr
                refine ⟨mva, s, hab, ?_, ?_⟩
                · rw [hms, hivV]
                  exact hP1
                · rw [hms, hivV]
                  exact hP2
            | black =>
                obtain ⟨mvm, hloop⟩ := mmLoop_fold_black e L (k + 1) g
                  (fun g' => mm_spec e L k g' .white)
                  (e.legal_moves g .black) (win_score e .black) []
                  (fun x hx => hx) (fun _ => rfl)
                  (Or.inr (L.no_stuck g .black hend))
                  (win_score_bounds e L .black).1 (win_score_bounds e L .black).2
                have hmm : minimax e (k + 2) g .black =
                    some (mvm, fmin (fun m => mmScore e (k + 1) (e.make_move g m) .white)
                      (win_score e .black) (e.legal_moves g .black)) := by
                  show minimax e (k + 2) g .black = _
                  simp only [minimax, hend, if_false, Bool.false_eq_true, hr,
                    Nat.succ_ne_zero, false_or, hsent, if_false]
                  show mmLoop e (fun g' => minimax e (k + 1) g' (opposing_color Color.black))
                      g .black (e.legal_moves g .black) (win_score e Color.black) [] = _
                  show mmLoop e (fun g' => minimax e (k + 1) g' Color.white)
                      g .black (e.legal_moves g .black) (win_score e Color.black) [] = _
                  exact hloop
                have hms := mmScore_eq e hmm
                have hivV : iv (fmin (fun m => mmScore e (k + 1) (e.make_move g m) .white)
                    (win_score e .black) (e.legal_moves g .black)) =
                    fmin (childScoreEV e (k + 1) g .white) ⊤ (e.legal_moves g .black) := by
                  rw [iv_fmin]
                  have hconv : fmin (fun x => iv (mmScore e (k + 1) (e.make_move g x) .white))
                      (iv (win_score e .black)) (e.legal_moves g .black) =
                      fmin (childScoreEV e (k + 1) g .white)
                        (iv (win_score e .black)) (e.legal_moves g .black) := rfl
                  rw [hconv]
                  have hshift : fmin (childScoreEV e (k + 1) g .white)
                      (min (iv (win_score e .black)) ⊤) (e.legal_moves g .black) =
                      min (iv (win_score e .black))
                        (fmin (childScoreEV e (k + 1) g .white) ⊤ (e.legal_moves g .black)) :=
                    fmin_shift _ _ _ _
                  rw [min_eq_left le_top] at hshift
                  rw [hshift]
                  refine min_eq_right ?_
                  obtain ⟨m0, hm0⟩ := List.exists_mem_of_ne_nil _ (L.no_stuck g .black hend)
                  refine le_trans (fmin_le_of_mem (childScoreEV e (k + 1) g .white) ⊤ hm0) ?_
                  obtain ⟨mv', v', hr', _, hhi'⟩ := mm_spec e L k (e.make_move g m0) .white
                  show childScoreEV e (k + 1) g .white m0 ≤ iv (win_score e .black)
                  rw [childScoreEV, mmScore_eq e hr', win_score_black]
                  exact iv_le_iv.mpr hhi'
                obtain ⟨mva, s, habr, _, hP1, hP2⟩ := abLoopB_spec e L (k + 1) g
                  (fun g' a' b' ha' hb' => ihab g' .white a' b' ha' hb')
                  (fun g' => mm_spec e L k g' .white) a ha
                  (e.legal_moves g .black) b [] hb
                have hab : alpha_beta e (k + 2) g .black a b = some (mva, s) := by
                  show alpha_beta e (k + 2) g .black a b = _
                  simp only [alpha_beta, hend, if_false, Bool.false_eq_true, hr,
                    Nat.succ_ne_zero, false_or, hsent, if_false]
                  exact habr
                refine ⟨mva, s, hab, ?_, ?_⟩
                · rw [hms, hivV]
                  exact hP2
                · rw [hms, hivV]
                  exact hP1

/-- C1: for every game, every color and every depth at least 1, the score
returned by `alpha_beta` with the default window (`alpha = -∞`,
`beta = +∞`) equals the score returned by `minimax` on the same
arguments.  Quantifying over every lawful engine covers every enumeration
order of the legal moves. -/
theorem C1_pruned_search_score_equiv (e : Engine G M) (L : Laws e) (g : G) (c : Color)
    (d : Nat) (hd : 1 ≤ d) :
    (alpha_beta e d g c NEG_INF POS_INF).map Prod.snd =
      (minimax e d g c).map (fun p => iv p.2) := by
  obtain ⟨n, rfl⟩ : ∃ n, d = n + 1 := ⟨d - 1, by omega⟩
  obtain ⟨mvm, v, hmm, _, _⟩ := mm_spec e L n g c
  obtain ⟨mva, s, hab, hP1, hP2⟩ := ab_spec e L n g c NEG_INF POS_INF
    (neg_inf_le _) (iv_le_pos_inf _)
  have hms : mmScore e (n + 1) g c = v := mmScore_eq e hmm
  rw [hms] at hP1 hP2
  have hs : s = iv v := by
    apply le_antisymm
    · exact le_trans hP1 (le_of_eq (max_eq_right (neg_inf_le _)))
    · exact le_trans (le_of_eq (min_eq_right (iv_le_pos_inf _)).symm) hP2
  rw [hab, hmm, hs]
  simp

/-- Witness for C1 on the concrete engine at depth 2. -/
theorem C1_pruned_search_score_equiv_witness :
    Laws WEngine ∧ (1 : Nat) ≤ 2 ∧
      (alpha_beta WEngine 2 1 .black NEG_INF POS_INF).map Prod.snd =
        (minimax WEngine 2 1 .black).map (fun p => iv p.2) :=
  ⟨wengine_laws, by norm_num,
    C1_pruned_search_score_equiv WEngine wengine_laws 1 .black 2 (by norm_num)⟩

/-- C4: for an ended game, the terminal evaluator returns
`win_score(side_to_move)` when the side to move is checkmated, where
`win_score(WHITE) = -10·KING_VALUE` and `win_score(BLACK) = +10·KING_VALUE`,
and returns exactly 0 when the game ended by stalemate, insufficient
material or the 75-move rule (and is not a checkmate). -/
theorem C4_terminal_scores (e : Engine G M) (g : G) (_hend : e.game_ended g = true) :
    (e.is_checkmate g (e.to_move g) = true →
      evaluate_end_node e g = some (win_score e (e.to_move g))) ∧
    win_score e .white = -(10 * e.PIECE_VALUES KING) ∧
    win_score e .black = 10 * e.PIECE_VALUES KING ∧
    (e.is_checkmate g (e.to_move g) = false →
      (e.is_stalemate g || e.has_insufficient_material g || e.is_under_75_move_rule g) = true →
      evaluate_end_node e g = some 0) := by
  refine ⟨?_, by rw [win_score_white, mateScore], rfl, ?_⟩
  · intro h
    simp [evaluate_end_node, h]
  · intro h hd
    simp [evaluate_end_node, h, hd]

/-- Witness for C4 on the concrete engine: state 5 is an ended, checkmated
position. -/
theorem C4_terminal_scores_witness :
    WEngine.game_ended 5 = true ∧
    ((WEngine.is_checkmate 5 (WEngine.to_move 5) = true →
      evaluate_end_node WEngine 5 = some (win_score WEngine (WEngine.to_move 5))) ∧
    win_score WEngine .white = -(10 * WEngine.PIECE_VALUES KING) ∧
    win_score WEngine .black = 10 * WEngine.PIECE_VALUES KING ∧
    (WEngine.is_checkmate 5 (WEngine.to_move 5) = false →
      (WEngine.is_stalemate 5 || WEngine.has_insufficient_material 5 ||
        WEngine.is_under_75_move_rule 5) = true →
      evaluate_end_node WEngine 5 = some 0)) :=
  ⟨by decide, C4_terminal_scores WEngine 5 (by decide)⟩

/-- C5: for a non-ended game the combined evaluation is exactly material
balance plus positional balance, and the mobility balance contributes
nothing: the result is unchanged under every replacement of the
legal-move-counting function the mobility balance is built from. -/
theorem C5_mobility_disabled (e : Engine G M) (g : G) (hne : e.game_ended g = false) :
    evaluate_game e g = some (material_balance e (e.board g) + positional_balance e g) ∧
    ∀ f : G → Color → Int,
      evaluate_game { e with count_legal_moves := f } g = evaluate_game e g := by
  constructor
  · simp [evaluate_game, hne]
  · intro f
    rfl

/-- Witness for C5 on the concrete engine at the start state. -/
theorem C5_mobility_disabled_witness :
    WEngine.game_ended 0 = false ∧
    (evaluate_game WEngine 0 =
        some (material_balance WEngine (WEngine.board 0) + positional_balance WEngine 0) ∧
      ∀ f : Nat → Color → Int,
        evaluate_game { WEngine with count_legal_moves := f } 0 = evaluate_game WEngine 0) :=
  ⟨by decide, C5_mobility_disabled WEngine 0 (by decide)⟩

/-- C8: on a non-ended game, `minimax` returns exactly the pair produced
by the single-ply ranker whenever the depth is 1 or the single-ply score
already equals `win_score(opposing(color))`; the result is fully
determined by `evaluated_move`, so no recursion beyond one ply occurs in
those cases. -/
theorem C8_minimax_base_case (e : Engine G M) (g : G) (c : Color) (d : Nat)
    (hd : 1 ≤ d) (hne : e.game_ended g = false) (p : M × Int)
    (hr : evaluated_move e g c = some p)
    (h : d = 1 ∨ p.2 = win_score e (opposing_color c)) :
    minimax e d g c = some (some p.1, p.2) := by
  obtain ⟨n, rfl⟩ : ∃ n, d = n + 1 := ⟨d - 1, by omega⟩
  rcases h with h1 | h2
  · have hn : n = 0 := by omega
    subst hn
    simp [minimax, hne, hr]
  · simp [minimax, hne, hr, h2]

/-- Witness for C8 on the concrete engine at depth 1. -/
theorem C8_minimax_base_case_witness :
    (1 : Nat) ≤ 1 ∧ WEngine.game_ended 0 = false ∧
    evaluated_move WEngine 0 .white = some (2, 10) ∧
    ((1 : Nat) = 1 ∨ (2, (10 : Int)).2 = win_score WEngine (opposing_color .white)) ∧
    minimax WEngine 1 0 .white = some (some 2, 10) :=
  ⟨by norm_num, by decide, by decide, Or.inl rfl,
    C8_minimax_base_case WEngine 0 .white 1 (by norm_num) (by decide) (2, 10)
      (by decide) (Or.inl rfl)⟩

/-- The rank-7 bit test of the source is exactly the index range 48..55
(little-endian rank-file mapping). -/
theorem rank7_iff : ∀ i, i < 64 → (((1 <<< i) &&& RANK_7 ≠ 0) ↔ (48 ≤ i ∧ i ≤ 55)) := by
  decide

/-- Specification-side per-square bonus following the claim's wording: a
rook receives the open-file bonus, or else the semi-open-file bonus, or
neither — never both, open-file taking precedence — plus the flat
seventh-rank bonus exactly when its index lies on rank 7 (indices 48..55
of the board as seen from the evaluated color's perspective); the other
piece kinds are the source's table lookups. -/
def squareBonusSpec (e : Engine G M) (b : List Nat) (c : Color) (index : Nat) : Int :=
  let piece := b.getD index EMPTY
  if piece ≠ EMPTY ∧ piece &&& COLOR_MASK = colorCode c then
    let piece_type := piece &&& PIECE_MASK
    if piece_type = PAWN then e.PAWN_BONUS index
    else if piece_type = KNIGHT then e.KNIGHT_BONUS index
    else if piece_type = BISHOP then e.BISHOP_BONUS index
    else if piece_type = ROOK then
      (if e.is_open_file (1 <<< index) b then e.ROOK_OPEN_FILE_BONUS
       else if e.is_semi_open_file (1 <<< index) b then e.ROOK_SEMI_OPEN_FILE_BONUS
       else 0) +
      (if 48 ≤ index ∧ index ≤ 55 then e.ROOK_ON_SEVENTH_BONUS else 0)
    else if piece_type = KING then
      (if e.is_endgame b then e.KING_ENDGAME_BONUS index else e.KING_BONUS index)
    else 0
  else 0

theorem foldl_add_sum {β : Type} (body : Int → β → Int) (spec : β → Int) :
    ∀ (l : List β), (∀ acc x, x ∈ l → body acc x = acc + spec x) →
      ∀ acc : Int, l.foldl body acc = acc + (l.map spec).sum := by
  intro l
  induction l with
  | nil =>
      intro _ acc
      simp
  | cons x xs ih =>
      intro hstep acc
      rw [List.foldl_cons, hstep acc x (by simp), List.map_cons, List.sum_cons,
        ih (fun a y hy => hstep a y (by simp [hy])) (acc + spec x)]
      ring

theorem positional_bonus_step (e : Engine G M) (b : List Nat) (c : Color)
    (acc : Int) (i : Nat) (h64 : i < 64) :
    (let piece := b.getD i EMPTY
     if piece ≠ EMPTY ∧ piece &&& COLOR_MASK = colorCode c then
       let piece_type := piece &&& PIECE_MASK
       if piece_type = PAWN then acc + e.PAWN_BONUS i
       else if piece_type = KNIGHT then acc + e.KNIGHT_BONUS i
       else if piece_type = BISHOP then acc + e.BISHOP_BONUS i
       else if piece_type = ROOK then
         let position := 1 <<< i
         let b1 :=
           if e.is_open_file position b then acc + e.ROOK_OPEN_FILE_BONUS
           else if e.is_semi_open_file position b then acc + e.ROOK_SEMI_OPEN_FILE_BONUS
           else acc
         if position &&& RANK_7 ≠ 0 then b1 + e.ROOK_ON_SEVENTH_BONUS else b1
       else if piece_type = KING then
         if e.is_endgame b then acc + e.KING_ENDGAME_BONUS i
         else acc + e.KING_BONUS i
       else acc
     else acc) = acc + squareBonusSpec e b c i := by
  simp only [squareBonusSpec, rank7_iff i h64]
  split_ifs <;> ring

/-- C9: the positional bonus is the sum over the 64 squares of the
specification-side per-square bonus, evaluated on the board itself for
White and on the vertically mirrored board for Black; in particular every
rook receives the open-file bonus or else the semi-open-file bonus but
never both (open-file takes precedence), plus the flat seventh-rank bonus
exactly when its (perspective-adjusted) index lies on rank 7. -/
theorem C9_rook_bonus_structure (e : Engine G M) (g : G) :
    positional_bonus e g .white =
      ((List.range 64).map (squareBonusSpec e (e.board g) .white)).sum ∧
    positional_bonus e g .black =
      ((List.range 64).map (squareBonusSpec e (e.flip_board_v (e.board g)) .black)).sum := by
  constructor
  · unfold positional_bonus
    refine Eq.trans (foldl_add_sum _ (squareBonusSpec e (e.board g) .white) (List.range 64)
      ?_ 0) (zero_add _)
    intro acc i hi
    exact positional_bonus_step e (e.board g) .white acc i (List.mem_range.mp hi)
  · unfold positional_bonus
    refine Eq.trans (foldl_add_sum _ (squareBonusSpec e (e.flip_board_v (e.board g)) .black)
      (List.range 64) ?_ 0) (zero_add _)
    intro acc i hi
    exact positional_bonus_step e (e.flip_board_v (e.board g)) .black acc i
      (List.mem_range.mp hi)

/-- C3 (code bug): with `use_book = True` and an opening-book miss
(`find_in_book` empty because the game's history does not start from the
initial position), `get_AI_move` does not fall back to the search — its
`move` local is never assigned and Python raises `UnboundLocalError`
(modelled `none`) — even though the fallback pruned search would produce
a legal move, as the `use_book = False` run shows. -/
theorem C3_book_miss_no_fallback :
    get_AI_move WEngine 0 2 true = none ∧
    find_in_book WEngine 0 = [] ∧
    WEngine.game_ended 0 = false ∧
    get_AI_move WEngine 0 2 false = some 2 ∧
    2 ∈ WEngine.legal_moves 0 (WEngine.to_move 0) := by
  refine ⟨?_, ?_, by decide, by decide, by decide⟩
  · simp [get_AI_move, find_in_book, WEngine]
  · simp [find_in_book, WEngine]

/-- C2: on a non-ended game with the named color to move, if some legal
move delivers checkmate, then `evaluated_move`, `minimax` and
`alpha_beta` (any depth at least 1, default window) all return a mating
move paired with the score exactly `win_score(opposing_color(color))`,
and no tie-break randomization applies to that result: it is identical
for every replacement of the engine's random-choice function. -/
theorem C2_mate_detection_precedence (e : Engine G M) (L : Laws e) (g : G) (c : Color)
    (hne : e.game_ended g = false) (hc : c = e.to_move g)
    (m0 : M) (hm0 : m0 ∈ e.legal_moves g c)
    (hmate0 : e.is_checkmate (e.make_move g m0) (opposing_color (e.to_move g)) = true) :
    ∃ m1, m1 ∈ e.legal_moves g c ∧
      e.is_checkmate (e.make_move g m1) (opposing_color (e.to_move g)) = true ∧
      (∀ ch : List M → Option M,
        evaluated_move { e with choice := ch } g c =
          some (m1, win_score e (opposing_color c))) ∧
      (∀ (d : Nat), 1 ≤ d → ∀ ch : List M → Option M,
        minimax { e with choice := ch } d g c =
          some (some m1, win_score e (opposing_color c)) ∧
        alpha_beta { e with choice := ch } d g c NEG_INF POS_INF =
          some (some m1, iv (win_score e (opposing_color c)))) := by
  have heval : ∀ m : M, ∃ v, evaluate_game e (e.make_move g m) = some v := by
    intro m
    obtain ⟨v, hv, _, _⟩ := evaluate_game_total e L (e.make_move g m)
    exact ⟨v, hv⟩
  obtain ⟨m1, v, hmem, hmate1, hev1, hch⟩ :=
    emLoop_mate e g c heval (e.legal_moves g c) (win_score e c) [] m0 hm0 hmate0
  have htm : e.to_move (e.make_move g m1) = opposing_color (e.to_move g) := L.to_move_make g m1
  have hcm : e.is_checkmate (e.make_move g m1) (e.to_move (e.make_move g m1)) = true := by
    rw [htm]
    exact hmate1
  have hend1 : e.game_ended (e.make_move g m1) = true := L.mate_ended _ hcm
  have hv : v = win_score e (opposing_color c) := by
    have h1 : evaluate_game e (e.make_move g m1) =
        some (win_score e (e.to_move (e.make_move g m1))) := by
      simp [evaluate_game, hend1, evaluate_end_node, hcm]
    rw [h1] at hev1
    have h2 := Option.some.inj hev1
    rw [htm, ← hc] at h2
    exact h2.symm
  have hem : ∀ ch : List M → Option M, evaluated_move { e with choice := ch } g c =
      some (m1, win_score e (opposing_color c)) := by
    intro ch
    have h3 : evaluated_move { e with choice := ch } g c = some (m1, v) := hch ch
    rw [h3, hv]
  refine ⟨m1, hmem, hmate1, hem, ?_⟩
  intro d hd ch
  obtain ⟨n, rfl⟩ : ∃ n, d = n + 1 := ⟨d - 1, by omega⟩
  have hws : win_score { e with choice := ch } (opposing_color c) =
      win_score e (opposing_color c) := rfl
  constructor
  · simp [minimax, hne, hem ch, hws]
  · simp [alpha_beta, hne, hem ch, hws]

/-- Witness for C2 on the concrete engine: from the start state White's
move 2 checkmates Black. -/
theorem C2_mate_detection_precedence_witness :
    Laws WEngine ∧ WEngine.game_ended 0 = false ∧ Color.white = WEngine.to_move 0 ∧
    2 ∈ WEngine.legal_moves 0 .white ∧
    WEngine.is_checkmate (WEngine.make_move 0 2) (opposing_color (WEngine.to_move 0)) = true ∧
    (∃ m1, m1 ∈ WEngine.legal_moves 0 .white ∧
      WEngine.is_checkmate (WEngine.make_move 0 m1) (opposing_color (WEngine.to_move 0)) = true ∧
      (∀ ch : List Nat → Option Nat,
        evaluated_move { WEngine with choice := ch } 0 .white =
          some (m1, win_score WEngine (opposing_color .white))) ∧
      (∀ (d : Nat), 1 ≤ d → ∀ ch : List Nat → Option Nat,
        minimax { WEngine with choice := ch } d 0 .white =
          some (some m1, win_score WEngine (opposing_color .white)) ∧
        alpha_beta { WEngine with choice := ch } d 0 .white NEG_INF POS_INF =
          some (some m1, iv (win_score WEngine (opposing_color .white))))) :=
  ⟨wengine_laws, by decide, by decide, by decide, by decide,
    C2_mate_detection_precedence WEngine wengine_laws 0 .white (by decide) (by decide)
      2 (by decide) (by decide)⟩

/-- C6: on a non-ended game with at least one legal move for the color,
the single-ply ranker returns a pair `(move, score)` with the move legal
and `evaluate_game (make_move game move) = score`; and when no legal move
mates, the score is the maximum (for White) resp. minimum (for Black)
over all legal moves of the successor evaluation — the maximum itself
being attained by the returned move. -/
theorem C6_single_ply_ranker (e : Engine G M) (L : Laws e) (g : G) (c : Color)
    (hne : e.game_ended g = false) (hmoves : e.legal_moves g c ≠ []) :
    ∃ mv v, evaluated_move e g c = some (mv, v) ∧
      mv ∈ e.legal_moves g c ∧
      evaluate_game e (e.make_move g mv) = some v ∧
      ((∀ m ∈ e.legal_moves g c,
          e.is_checkmate (e.make_move g m) (opposing_color (e.to_move g)) = false) →
        ∀ m ∈ e.legal_moves g c, ∀ w, evaluate_game e (e.make_move g m) = some w →
          ((c = .white → w ≤ v) ∧ (c = .black → v ≤ w))) := by
  obtain ⟨mv, v, hr, hmem, hev, _, _⟩ := evaluated_move_strong e L g c hne
  refine ⟨mv, v, hr, hmem, hev, ?_⟩
  intro hnomate m hm w hw
  have hce : childEval e g m = w := childEval_eq e hw
  constructor
  · intro hcw
    subst hcw
    obtain ⟨mv', hr', _⟩ := emLoop_fold_white e L g (e.legal_moves g .white)
      (win_score e .white) [] hnomate (by intro x hx; cases hx)
      (win_score_bounds e L .white).1 (win_score_bounds e L .white).2
      (fun _ => rfl) (Or.inr hmoves)
    have h4 : emLoop e g .white (e.legal_moves g .white) (win_score e .white) [] =
        some (mv, v) := hr
    rw [hr'] at h4
    have hveq : fmax (childEval e g) (win_score e .white) (e.legal_moves g .white) = v :=
      congrArg Prod.snd (Option.some.inj h4)
    rw [← hveq, ← hce]
    exact le_fmax_of_mem _ _ hm
  · intro hcb
    subst hcb
    obtain ⟨mv', hr', _⟩ := emLoop_fold_black e L g (e.legal_moves g .black)
      (win_score e .black) [] hnomate (by intro x hx; cases hx)
      (win_score_bounds e L .black).1 (win_score_bounds e L .black).2
      (fun _ => rfl) (Or.inr hmoves)
    have h4 : emLoop e g .black (e.legal_moves g .black) (win_score e .black) [] =
        some (mv, v) := hr
    rw [hr'] at h4
    have hveq : fmin (childEval e g) (win_score e .black) (e.legal_moves g .black) = v :=
      congrArg Prod.snd (Option.some.inj h4)
    rw [← hveq, ← hce]
    exact fmin_le_of_mem _ _ hm

/-- Witness for C6 on the concrete engine at state 1 (Black to move, no
mating move available). -/
theorem C6_single_ply_ranker_witness :
    Laws WEngine ∧ WEngine.game_ended 1 = false ∧ WEngine.legal_moves 1 .black ≠ [] ∧
    (∃ mv v, evaluated_move WEngine 1 .black = some (mv, v) ∧
      mv ∈ WEngine.legal_moves 1 .black ∧
      evaluate_game WEngine (WEngine.make_move 1 mv) = some v ∧
      ((∀ m ∈ WEngine.legal_moves 1 .black,
          WEngine.is_checkmate (WEngine.make_move 1 m)
            (opposing_color (WEngine.to_move 1)) = false) →
        ∀ m ∈ WEngine.legal_moves 1 .black, ∀ w,
          evaluate_game WEngine (WEngine.make_move 1 m) = some w →
          ((Color.black = .white → w ≤ v) ∧ (Color.black = .black → v ≤ w)))) :=
  ⟨wengine_laws, by decide, by decide,
    C6_single_ply_ranker WEngine wengine_laws 1 .black (by decide) (by decide)⟩

/-- Moves returned by the single-ply loop come from the processed list or
the tie-break accumulator. -/
theorem emLoop_mem (e : Engine G M) (L : Laws e) (g : G) (c : Color) (S : List M) :
    ∀ (ms : List M) (bs : Int) (bm : List M),
      (∀ x ∈ ms, x ∈ S) → (∀ x ∈ bm, x ∈ S) →
      ∀ mv v, emLoop e g c ms bs bm = some (mv, v) → mv ∈ S := by
  intro ms
  induction ms with
  | nil =>
      intro bs bm _ hbm mv v hr
      simp only [emLoop] at hr
      cases hc : e.choice bm with
      | none => simp [hc] at hr
      | some mv' =>
          simp only [hc, Option.map] at hr
          injection hr with hp
          injection hp with h1 h2
          subst h1
          exact hbm mv' (L.choice_mem bm mv' hc)
  | cons m rest ih =>
      intro bs bm hms hbm mv v hr
      simp only [emLoop] at hr
      cases hev : evaluate_game e (e.make_move g m) with
      | none => simp [hev] at hr
      | some ev =>
          simp only [hev] at hr
          split_ifs at hr with h1 h2 h3
          · injection hr with hp
            injection hp with ha hb
            subst ha
            exact hms m (by simp)
          · exact ih ev [m] (fun x hx => hms x (by simp [hx]))
              (by intro x hx; simp at hx; subst hx; exact hms _ (by simp)) mv v hr
          · exact ih bs (bm ++ [m]) (fun x hx => hms x (by simp [hx]))
              (by
                intro x hx
                rcases List.mem_append.mp hx with h | h
                · exact hbm x h
                · simp at h
                  subst h
                  exact hms _ (by simp)) mv v hr
          · exact ih bs bm (fun x hx => hms x (by simp [hx])) hbm mv v hr

/-- Moves returned by the `minimax` loop come from the processed list or
the tie-break accumulator, for any recursive continuation. -/
theorem mmLoop_mem (e : Engine G M) (L : Laws e) (rec : G → Option (Option M × Int))
    (g : G) (c : Color) (S : List M) :
    ∀ (ms : List M) (bs : Int) (bm : List M),
      (∀ x ∈ ms, x ∈ S) → (∀ x ∈ bm, x ∈ S) →
      ∀ mv v, mmLoop e rec g c ms bs bm = some (some mv, v) → mv ∈ S := by
  intro ms
  induction ms with
  | nil =>
      intro bs bm _ hbm mv v hr
      simp only [mmLoop] at hr
      cases hc : e.choice bm with
      | none => simp [hc] at hr
      | some mv' =>
          simp only [hc, Option.map] at hr
          injection hr with hp
          injection hp with h1 h2
          injection h1 with h1'
          subst h1'
          exact hbm mv' (L.choice_mem bm mv' hc)
  | cons m rest ih =>
      intro bs bm hms hbm mv v hr
      simp only [mmLoop] at hr
      split_ifs at hr with h1
      · injection hr with hp
        injection hp with ha hb
        injection ha with ha'
        subst ha'
        exact hms m (by simp)
      · cases hrec : rec (e.make_move g m) with
        | none => simp [hrec] at hr
        | some p =>
            obtain ⟨pm, pv⟩ := p
            simp only [hrec] at hr
            split_ifs at hr with h2 h3 h4
            · injection hr with hp
              injection hp with ha hb
              injection ha with ha'
              subst ha'
              exact hms m (by simp)
            · exact ih pv [m] (fun x hx => hms x (by simp [hx]))
                (by intro x hx; simp at hx; subst hx; exact hms _ (by simp)) mv v hr
            · exact ih bs (bm ++ [m]) (fun x hx => hms x (by simp [hx]))
                (by
                  intro x hx
                  rcases List.mem_append.mp hx with h | h
                  · exact hbm x h
                  · simp at h
                    subst h
                    exact hms _ (by simp)) mv v hr
            · exact ih bs bm (fun x hx => hms x (by simp [hx])) hbm mv v hr

/-- Moves returned by the White pruned-search loop come from the
processed list or the tie-break accumulator. -/
theorem abLoopW_mem (e : Engine G M) (L : Laws e)
    (rec : G → EV → EV → Option (Option M × EV)) (g : G) (beta : EV) (S : List M) :
    ∀ (ms : List M) (alpha : EV) (bm : List M),
      (∀ x ∈ ms, x ∈ S) → (∀ x ∈ bm, x ∈ S) →
      ∀ mv s, abLoopW e rec g beta ms alpha bm = some (some mv, s) → mv ∈ S := by
  intro ms
  induction ms with
  | nil =>
      intro alpha bm _ hbm mv s hr
      simp only [abLoopW] at hr
      cases hbme : bm.isEmpty with
      | true =>
          simp [hbme] at hr
      | false =>
          simp only [hbme, Bool.false_eq_true, if_false] at hr
          cases hc : e.choice bm with
          | none => simp [hc] at hr
          | some mv' =>
              simp only [hc, Option.map] at hr
              injection hr with hp
              injection hp with h1 h2
              injection h1 with h1'
              subst h1'
              exact hbm mv' (L.choice_mem bm mv' hc)
  | cons m rest ih =>
      intro alpha bm hms hbm mv s hr
      simp only [abLoopW] at hr
      cases hrec : rec (e.make_move g m) alpha beta with
      | none => simp [hrec] at hr
      | some p =>
          obtain ⟨pm, ps⟩ := p
          simp only [hrec] at hr
          split_ifs at hr with h1 h2 h3 h4
          · injection hr with hp
            injection hp with ha hb
            injection ha with ha'
            subst ha'
            exact hms _ (by simp)
          · cases hc : e.choice [m] with
            | none => simp [hc] at hr
            | some mv' =>
                simp only [hc, Option.map] at hr
                injection hr with hp
                injection hp with h1' h2'
                injection h1' with h1''
                subst h1''
                have hmem := L.choice_mem [m] mv' hc
                simp at hmem
                subst hmem
                exact hms _ (by simp)
          · exact ih ps [m] (fun x hx => hms x (by simp [hx]))
              (by intro x hx; simp at hx; subst hx; exact hms _ (by simp)) mv s hr
          · exact ih alpha (bm ++ [m]) (fun x hx => hms x (by simp [hx]))
              (by
                intro x hx
                rcases List.mem_append.mp hx with h | h
                · exact hbm x h
                · simp at h
                  subst h
                  exact hms _ (by simp)) mv s hr
          · exact ih alpha bm (fun x hx => hms x (by simp [hx])) hbm mv s hr

/-- Moves returned by the Black pruned-search loop come from the
processed list or the tie-break accumulator. -/
theorem abLoopB_mem (e : Engine G M) (L : Laws e)
    (rec : G → EV → EV → Option (Option M × EV)) (g : G) (alpha : EV) (S : List M) :
    ∀ (ms : List M) (beta : EV) (bm : List M),
      (∀ x ∈ ms, x ∈ S) → (∀ x ∈ bm, x ∈ S) →
      ∀ mv s, abLoopB e rec g alpha ms beta bm = some (some mv, s) → mv ∈ S := by
  intro ms
  induction ms with
  | nil =>
      intro beta bm _ hbm mv s hr
      simp only [abLoopB] at hr
      cases hbme : bm.isEmpty with
      | true =>
          simp [hbme] at hr
      | false =>
          simp only [hbme, Bool.false_eq_true, if_false] at hr
          cases hc : e.choice bm with
          | none => simp [hc] at hr
          | some mv' =>
              simp only [hc, Option.map] at hr
              injection hr with hp
              injection hp with h1 h2
              injection h1 with h1'
              subst h1'
              exact hbm mv' (L.choice_mem bm mv' hc)
  | cons m rest ih =>
      intro beta bm hms hbm mv s hr
      simp only [abLoopB] at hr
      cases hrec : rec (e.make_move g m) alpha beta with
      | none => simp [hrec] at hr
      | some p =>
          obtain ⟨pm, ps⟩ := p
          simp only [hrec] at hr
          split_ifs at hr with h1 h2 h3 h4
          · injection hr with hp
            injection hp with ha hb
            injection ha with ha'
            subst ha'
            exact hms _ (by simp)
          · cases hc : e.choice [m] with
            | none => simp [hc] at hr
            | some mv' =>
                simp only [hc, Option.map] at hr
                injection hr with hp
                injection hp with h1' h2'
                injection h1' with h1''
                subst h1''
                have hmem := L.choice_mem [m] mv' hc
                simp at hmem
                subst hmem
                exact hms _ (by simp)
          · exact ih ps [m] (fun x hx => hms x (by simp [hx]))
              (by intro x hx; simp at hx; subst hx; exact hms _ (by simp)) mv s hr
          · exact ih beta (bm ++ [m]) (fun x hx => hms x (by simp [hx]))
              (by
                intro x hx
                rcases List.mem_append.mp hx with h | h
                · exact hbm x h
                · simp at h
                  subst h
                  exact hms _ (by simp)) mv s hr
          · exact ih beta bm (fun x hx => hms x (by simp [hx])) hbm mv s hr

/-- C10: whenever `evaluated_move`, `minimax` or `alpha_beta` returns a
non-`None` move, that move is an element of `legal_moves(game, color)`
for the game and color it was called on, at every depth and window. -/
theorem C10_returned_moves_legal (e : Engine G M) (L : Laws e) (g : G) (c : Color)
    (d : Nat) (a b : EV) :
    (∀ (m : M) (v : Int), evaluated_move e g c = some (m, v) → m ∈ e.legal_moves g c) ∧
    (∀ (m : M) (v : Int), minimax e d g c = some (some m, v) → m ∈ e.legal_moves g c) ∧
    (∀ (m : M) (s : EV), alpha_beta e d g c a b = some (some m, s) → m ∈ e.legal_moves g c) := by
  have hem : ∀ (m : M) (v : Int), evaluated_move e g c = some (m, v) →
      m ∈ e.legal_moves g c := by
    intro m v hr
    have hr' : emLoop e g c (e.legal_moves g c) (win_score e c) [] = some (m, v) := hr
    exact emLoop_mem e L g c (e.legal_moves g c) (e.legal_moves g c) (win_score e c) []
      (fun x hx => hx) (fun x hx => by cases hx) m v hr'
  refine ⟨hem, ?_, ?_⟩
  · intro m v hr
    cases d with
    | zero => simp [minimax] at hr
    | succ n =>
        cases hend : e.game_ended g with
        | true =>
            simp only [minimax, hend, if_true] at hr
            cases hv : evaluate_game e g with
            | none => simp [hv] at hr
            | some w =>
                simp only [hv, Option.map] at hr
                injection hr with hp
                injection hp with ha hb
                cases ha
        | false =>
            simp only [minimax, hend, Bool.false_eq_true, if_false] at hr
            cases hev : evaluated_move e g c with
            | none => simp [hev] at hr
            | some p =>
                obtain ⟨pm, pv⟩ := p
                simp only [hev] at hr
                split_ifs at hr with hbase
                · injection hr with hp
                  injection hp with ha hb
                  injection ha with ha'
                  subst ha'
                  exact hem pm pv hev
                · exact mmLoop_mem e L _ g c (e.legal_moves g c) (e.legal_moves g c)
                    (win_score e c) [] (fun x hx => hx) (fun x hx => by cases hx) m v hr
  · intro m sv hr
    cases d with
    | zero => simp [alpha_beta] at hr
    | succ n =>
        cases hend : e.game_ended g with
        | true =>
            simp only [alpha_beta, hend, if_true] at hr
            cases hv : evaluate_game e g with
            | none => simp [hv] at hr
            | some w =>
                simp only [hv, Option.map] at hr
                injection hr with hp
                injection hp with ha hb
                cases ha
        | false =>
            simp only [alpha_beta, hend, Bool.false_eq_true, if_false] at hr
            cases hev : evaluated_move e g c with
            | none => simp [hev] at hr
            | some p =>
                obtain ⟨pm, pv⟩ := p
                simp only [hev] at hr
                split_ifs at hr with hbase
                · injection hr with hp
                  injection hp with ha hb
                  injection ha with ha'
                  subst ha'
                  exact hem pm pv hev
                · cases c with
                  | white =>
                      exact abLoopW_mem e L _ g b (e.legal_moves g .white)
                        (e.legal_moves g .white) a [] (fun x hx => hx)
                        (fun x hx => by cases hx) m sv hr
                  | black =>
                      exact abLoopB_mem e L _ g a (e.legal_moves g .black)
                        (e.legal_moves g .black) b [] (fun x hx => hx)
                        (fun x hx => by cases hx) m sv hr

/-- Witness for C10 on the concrete engine. -/
theorem C10_returned_moves_legal_witness :
    Laws WEngine ∧
    ((∀ (m : Nat) (v : Int), evaluated_move WEngine 0 .white = some (m, v) →
        m ∈ WEngine.legal_moves 0 .white) ∧
      (∀ (m : Nat) (v : Int), minimax WEngine 2 0 .white = some (some m, v) →
        m ∈ WEngine.legal_moves 0 .white) ∧
      (∀ (m : Nat) (s : EV), alpha_beta WEngine 2 0 .white NEG_INF POS_INF =
          some (some m, s) → m ∈ WEngine.legal_moves 0 .white)) :=
  ⟨wengine_laws, C10_returned_moves_legal WEngine wengine_laws 0 .white 2 NEG_INF POS_INF⟩

/-- Instrumented mirror of `abLoopW` that also records the value of
`alpha` in effect at the end of each executed loop iteration. -/
def abRunW (e : Engine G M) (rec : G → EV → EV → Option (Option M × EV))
    (g : G) (beta : EV) :
    List M → EV → List M → List EV × Option (Option M × EV)
  | [], alpha, best_moves =>
      ([], if best_moves.isEmpty then some ((none : Option M), alpha)
           else (e.choice best_moves).map (fun mv => (some mv, alpha)))
  | m :: rest, alpha, best_moves =>
      match rec (e.make_move g m) alpha beta with
      | none => ([], none)
      | some (_, score) =>
        if score = iv (win_score e .black) then ([alpha], some (some m, score))
        else
          let bm1 := if score = alpha then best_moves ++ [m] else best_moves
          if alpha < score then
            if beta < score then ([score], (e.choice [m]).map (fun mv => (some mv, score)))
            else
              let r := abRunW e rec g beta rest score [m]
              (score :: r.1, r.2)
          else
            let r := abRunW e rec g beta rest alpha bm1
            (alpha :: r.1, r.2)

/-- Instrumented mirror of `abLoopB` recording the successive values of
`beta`. -/
def abRunB (e : Engine G M) (rec : G → EV → EV → Option (Option M × EV))
    (g : G) (alpha : EV) :
    List M → EV → List M → List EV × Option (Option M × EV)
  | [], beta, best_moves =>
      ([], if best_moves.isEmpty then some ((none : Option M), beta)
           else (e.choice best_moves).map (fun mv => (some mv, beta)))
  | m :: rest, beta, best_moves =>
      match rec (e.make_move g m) alpha beta with
      | none => ([], none)
      | some (_, score) =>
        if score = iv (win_score e .white) then ([beta], some (some m, score))
        else
          let bm1 := if score = beta then best_moves ++ [m] else best_moves
          if score < beta then
            if score < alpha then ([score], (e.choice [m]).map (fun mv => (some mv, score)))
            else
              let r := abRunB e rec g alpha rest score [m]
              (score :: r.1, r.2)
          else
            let r := abRunB e rec g alpha rest beta bm1
            (beta :: r.1, r.2)

/-- C7: within one call of the pruned search's loops, the trace of the
`alpha` bound is non-decreasing across White-branch iterations and the
trace of `beta` is non-increasing across Black-branch iterations (the
instrumented runs mirror the loops exactly, first two conjuncts), and as
soon as the updated bound crosses the other one (`alpha > beta`, i.e.
`beta < score` after `alpha := score` in the White branch, dually in the
Black branch), the loop's result no longer depends on the remaining
moves: no further legal move is explored. -/
theorem C7_bound_monotonic_cutoff (e : Engine G M) :
    (∀ (rec : G → EV → EV → Option (Option M × EV)) (g : G) (beta : EV)
        (ms : List M) (alpha : EV) (bm : List M),
      (abRunW e rec g beta ms alpha bm).2 = abLoopW e rec g beta ms alpha bm ∧
      List.Chain (fun x y => x ≤ y) alpha (abRunW e rec g beta ms alpha bm).1) ∧
    (∀ (rec : G → EV → EV → Option (Option M × EV)) (g : G) (alpha : EV)
        (ms : List M) (beta : EV) (bm : List M),
      (abRunB e rec g alpha ms beta bm).2 = abLoopB e rec g alpha ms beta bm ∧
      List.Chain (fun x y => y ≤ x) beta (abRunB e rec g alpha ms beta bm).1) ∧
    (∀ (rec : G → EV → EV → Option (Option M × EV)) (g : G) (beta : EV)
        (m : M) (rest rest' : List M) (alpha : EV) (bm : List M) (p : Option M × EV),
      rec (e.make_move g m) alpha beta = some p → alpha < p.2 → beta < p.2 →
      abLoopW e rec g beta (m :: rest) alpha bm = abLoopW e rec g beta (m :: rest') alpha bm) ∧
    (∀ (rec : G → EV → EV → Option (Option M × EV)) (g : G) (alpha : EV)
        (m : M) (rest rest' : List M) (beta : EV) (bm : List M) (p : Option M × EV),
      rec (e.make_move g m) alpha beta = some p → p.2 < beta → p.2 < alpha →
      abLoopB e rec g alpha (m :: rest) beta bm = abLoopB e rec g alpha (m :: rest') beta bm) := by
  refine ⟨?_, ?_, ?_, ?_⟩
  · intro rec g beta ms
    induction ms with
    | nil =>
        intro alpha bm
        exact ⟨rfl, List.Chain.nil⟩
    | cons m rest ih =>
        intro alpha bm
        cases hrec : rec (e.make_move g m) alpha beta with
        | none =>
            constructor
            · simp [abRunW, abLoopW, hrec]
            · simp [abRunW, hrec]
        | some p =>
            obtain ⟨pm, ps⟩ := p
            by_cases h1 : ps = iv (win_score e .black)
            · constructor
              · simp [abRunW, abLoopW, hrec, h1]
              · simp [abRunW, hrec, h1]
            · by_cases h2 : alpha < ps
              · by_cases h3 : beta < ps
                · constructor
                  · simp [abRunW, abLoopW, hrec, h1, h2, h3]
                  · simp [abRunW, hrec, h1, h2, h3]
                    exact le_of_lt h2
                · constructor
                  · simp only [abRunW, abLoopW, hrec]
                    simp only [if_neg h1, if_pos h2, if_neg h3]
                    exact (ih ps [m]).1
                  · simp only [abRunW, hrec]
                    simp only [if_neg h1, if_pos h2, if_neg h3, List.chain_cons]
                    exact ⟨le_of_lt h2, (ih ps [m]).2⟩
              · constructor
                · simp only [abRunW, abLoopW, hrec]
                  simp only [if_neg h1, if_neg h2]
                  exact (ih alpha (if ps = alpha then bm ++ [m] else bm)).1
                · simp only [abRunW, hrec]
                  simp only [if_neg h1, if_neg h2, List.chain_cons]
                  exact ⟨le_refl alpha, (ih alpha (if ps = alpha then bm ++ [m] else bm)).2⟩
  · intro rec g alpha ms
    induction ms with
    | nil =>
        intro beta bm
        exact ⟨rfl, List.Chain.nil⟩
    | cons m rest ih =>
        intro beta bm
        cases hrec : rec (e.make_move g m) alpha beta with
        | none =>
            constructor
            · simp [abRunB, abLoopB, hrec]
            · simp [abRunB, hrec]
        | some p =>
            obtain ⟨pm, ps⟩ := p
            by_cases h1 : ps = iv (win_score e .white)
            · constructor
              · simp [abRunB, abLoopB, hrec, h1]
              · simp [abRunB, hrec, h1]
            · by_cases h2 : ps < beta
              · by_cases h3 : ps < alpha
                · constructor
                  · simp [abRunB, abLoopB, hrec, h1, h2, h3]
                  · simp [abRunB, hrec, h1, h2, h3]
                    exact le_of_lt h2
                · constructor
                  · simp only [abRunB, abLoopB, hrec]
                    simp only [if_neg h1, if_pos h2, if_neg h3]
                    exact (ih ps [m]).1
                  · simp only [abRunB, hrec]
                    simp only [if_neg h1, if_pos h2, if_neg h3, List.chain_cons]
                    exact ⟨le_of_lt h2, (ih ps [m]).2⟩
              · constructor
                · simp only [abRunB, abLoopB, hrec]
                  simp only [if_neg h1, if_neg h2]
                  exact (ih beta (if ps = beta then bm ++ [m] else bm)).1
                · simp only [abRunB, hrec]
                  simp only [if_neg h1, if_neg h2, List.chain_cons]
                  exact ⟨le_refl beta, (ih beta (if ps = beta then bm ++ [m] else bm)).2⟩
  · intro rec g beta m rest rest' alpha bm p hrec h2 h3
    obtain ⟨pm, ps⟩ := p
    simp only [abLoopW, hrec]
    by_cases h1 : ps = iv (win_score e .black)
    · simp only [if_pos h1]
    · simp only [if_neg h1, if_pos h2, if_pos h3]
  · intro rec g alpha m rest rest' beta bm p hrec h2 h3
    obtain ⟨pm, ps⟩ := p
    simp only [abLoopB, hrec]
    by_cases h1 : ps = iv (win_score e .white)
    · simp only [if_pos h1]
    · simp only [if_neg h1, if_pos h2, if_pos h3]

/-- Witness for C7 on the concrete engine, with a continuation that
returns score 5 against the window (1, 2), triggering the cutoff. -/
theorem C7_bound_monotonic_cutoff_witness :
    ((abRunW WEngine (fun _ _ _ => some (none, iv 5)) 0 (iv 2) [7] (iv 1) []).2 =
        abLoopW WEngine (fun _ _ _ => some (none, iv 5)) 0 (iv 2) [7] (iv 1) [] ∧
      List.Chain (fun x y => x ≤ y) (iv 1)
        (abRunW WEngine (fun _ _ _ => some (none, iv 5)) 0 (iv 2) [7] (iv 1) []).1) ∧
    ((abRunB WEngine (fun _ _ _ => some (none, iv 0)) 0 (iv 4) [7] (iv 5) []).2 =
        abLoopB WEngine (fun _ _ _ => some (none, iv 0)) 0 (iv 4) [7] (iv 5) [] ∧
      List.Chain (fun x y => y ≤ x) (iv 5)
        (abRunB WEngine (fun _ _ _ => some (none, iv 0)) 0 (iv 4) [7] (iv 5) []).1) ∧
    abLoopW WEngine (fun _ _ _ => some (none, iv 5)) 0 (iv 2) [7, 8] (iv 1) [] =
      abLoopW WEngine (fun _ _ _ => some (none, iv 5)) 0 (iv 2) [7, 9] (iv 1) [] ∧
    abLoopB WEngine (fun _ _ _ => some (none, iv 0)) 0 (iv 4) [7, 8] (iv 5) [] =
      abLoopB WEngine (fun _ _ _ => some (none, iv 0)) 0 (iv 4) [7, 9] (iv 5) [] :=
  ⟨(C7_bound_monotonic_cutoff WEngine).1 (fun _ _ _ => some (none, iv 5)) 0 (iv 2) [7] (iv 1) [],
    (C7_bound_monotonic_cutoff WEngine).2.1 (fun _ _ _ => some (none, iv 0)) 0 (iv 4) [7] (iv 5) [],
    (C7_bound_monotonic_cutoff WEngine).2.2.1 (fun _ _ _ => some (none, iv 5)) 0 (iv 2) 7 [8] [9]
      (iv 1) [] (none, iv 5) rfl (by decide) (by decide),
    (C7_bound_monotonic_cutoff WEngine).2.2.2 (fun _ _ _ => some (none, iv 0)) 0 (iv 4) 7 [8] [9]
      (iv 5) [] (none, iv 0) rfl (by decide) (by decide)⟩

end ChessAI
